import Mathlib

/-! Planar multibody constraints: the mobile slider and the body mass cache.

A shallow embedding of `CConstraintMobileSlider` (residual, velocity residual and the
three sparse Jacobian rows it writes) and of the `CBody` attribute accessors with their
lazily cached mass sub-blocks, and of the two constraint factors `FactorConstraints` and
`FactorConstraintsVel`, followed by the properties proved about them.

The transcriptions are written once, over any number type `K` with the operations they
use. The program computes in `double`: its arithmetic is the type `F64`, a model of IEEE
754 binary64 (round to nearest, ties to even, gradual underflow, infinities and NaN)
that the kernel can evaluate. The same transcriptions taken over `ℝ` give the formulas
in exact arithmetic, which the analytic statements are about; `F64.Is` and `F64.IsInt`
link a `double` to the real number it holds.
-/

namespace mbse

/-! ## Data model -/

/-- Coordinates and velocities of one referenced point, as seen by a constraint
(`PointRef` of the constraint base: `x`, `y`, `dotx`, `doty`). -/
structure PointRef (K : Type) where
  x : K
  y : K
  dotx : K
  doty : K

/-- Entry of a sparse matrix, addressed by (row, column). A nullable `double*` into a
sparse store is an `Option Slot`; the null pointer is `none`. -/
abbrev Slot : Type := Nat × Nat

/-- One row of sparse-slot pointers owned by a constraint (`jacob.at(0)`), one pointer per
referenced point and per coordinate, into each of the three sparse stores. -/
structure JacobRow where
  dPhi_dx : Fin 3 → Option Slot
  dPhi_dy : Fin 3 → Option Slot
  dot_dPhi_dx : Fin 3 → Option Slot
  dot_dPhi_dy : Fin 3 → Option Slot
  dPhiqdq_dx : Fin 3 → Option Slot
  dPhiqdq_dy : Fin 3 → Option Slot

/-- The part of `CAssembledRigidModel` that constraints and factors read and write:
state vectors, residual vectors and the three sparse stores. -/
structure CAssembledRigidModel (K : Type) where
  q_ : List K
  dotq_ : List K
  Phi_ : Nat → K
  dotPhi_ : Nat → K
  Phi_q_ : Slot → K
  dotPhi_q_ : Slot → K
  dPhiqdq_dq_ : Slot → K

/-- A point of the mechanism as a constraint refers to it (`points_[i]`); the constraint
code reads its `fixed` flag. -/
structure Point2 (K : Type) where
  x : K
  y : K
  fixed : Bool

/-- Fields of `CConstraintMobileSlider` used by its two methods: the referenced points
(0 = sliding point, 1 and 2 = reference points), the residual row `idx_constr_[0]` and the
slot pointers `jacob.at(0)`. -/
structure CConstraintMobileSlider (K : Type) where
  points_ : Fin 3 → Point2 K
  idx_constr_ : Nat
  jacob : JacobRow

/-! ## Arithmetic of the program: IEEE 754 binary64 -/

/-- A `double`: a finite number `m * 2 ^ e`, an infinity, or a NaN. Every arithmetic
operation gives the exact result rounded once; a product and the sum it enters round
separately (no fused multiply-add). The two zeros of the
format are one value here: `==` does not tell them apart, and sums, differences and
products of operands that differ in the sign of a zero differ at most in the sign of a
zero. The operations return finite results in canonical form: zero is `fin 0 0`, a normal
number has `2 ^ 52 ≤ |m| < 2 ^ 53` and `-1074 ≤ e ≤ 971`, a subnormal number has
`|m| < 2 ^ 52` and `e = -1074`. -/
inductive F64 where
  | fin (m : Int) (e : Int)
  | inf (neg : Bool)
  | nan
  deriving DecidableEq

namespace F64

/-- Number of binary digits of `n`, by halving; `fuel` bounds the number of steps. -/
def bitsAux : Nat → Nat → Nat
  | 0, _ => 0
  | fuel + 1, n => if n = 0 then 0 else bitsAux fuel (n / 2) + 1

/-- Position of the leading binary digit of a positive `n`: the floor of its logarithm in
base 2. -/
def ilog2 (n : Nat) : Nat := bitsAux n n - 1

/-- Floor of the logarithm in base 2 of the fraction `a / d`, for positive `a` and `d`. -/
def ratioExponent (a d : Nat) : Int :=
  if d * 2 ^ ilog2 a ≤ a * 2 ^ ilog2 d then (ilog2 a : Int) - ilog2 d
  else (ilog2 a : Int) - ilog2 d - 1

/-- The fraction `a / d` counted in units of `2 ^ q` and rounded to the nearest integer,
ties to the even integer. -/
def roundToQuantum (a d : Nat) (q : Int) : Nat :=
  let N := a * 2 ^ (-q).toNat
  let D := d * 2 ^ q.toNat
  let k := N / D
  let r := N % D
  if 2 * r < D then k else if D < 2 * r then k + 1 else if k % 2 = 0 then k else k + 1

/-- The `double` of sign `s` (`true` is negative), significand `m ≤ 2 ^ 53` and exponent
`q`: a significand that rounding carried to `2 ^ 53` is renormalised, a result from
`2 ^ 1024` on overflows to an infinity, and zero is `fin 0 0`. -/
def pack (s : Bool) (m : Nat) (q : Int) : F64 :=
  let m1 := if m = 2 ^ 53 then 2 ^ 52 else m
  let q1 := if m = 2 ^ 53 then q + 1 else q
  if 971 < q1 then inf s
  else if m1 = 0 then fin 0 0
  else fin (if s then -(m1 : Int) else (m1 : Int)) q1

/-- The fraction `n / d` (with `0 < d`) rounded to the nearest `double`, ties to the even
significand, as every arithmetic operation of the format rounds its exact result: 53
significant binary digits, gradual underflow with quantum `2 ^ (-1074)`, overflow to an
infinity from `2 ^ 1024` on. -/
def roundRatio (n : Int) (d : Nat) : F64 :=
  if n = 0 then fin 0 0
  else
    let q : Int := max (ratioExponent n.natAbs d - 52) (-1074)
    pack (decide (n < 0)) (roundToQuantum n.natAbs d q) q

/-- The number `M * 2 ^ E` rounded to the nearest `double`. -/
def roundDyadic (M : Int) (E : Int) : F64 :=
  roundRatio (M * 2 ^ E.toNat) (2 ^ (-E).toNat)

/-- The decimal literal `n * 10 ^ (-k)` as a `double` (`ofDecimal 1 1` is `0.1`). -/
def ofDecimal (n : Int) (k : Nat) : F64 := roundRatio n (10 ^ k)

/-- Unary minus; exact. -/
def neg : F64 → F64
  | fin m e => fin (-m) e
  | inf s => inf (!s)
  | nan => nan

/-- Addition: the exact sum, rounded once. -/
def add : F64 → F64 → F64
  | fin m1 e1, fin m2 e2 =>
    roundDyadic (m1 * 2 ^ (e1 - min e1 e2).toNat + m2 * 2 ^ (e2 - min e1 e2).toNat)
      (min e1 e2)
  | fin _ _, inf s => inf s
  | inf s, fin _ _ => inf s
  | inf s, inf t => if s = t then inf s else nan
  | _, _ => nan

/-- Multiplication: the exact product, rounded once. -/
def mul : F64 → F64 → F64
  | fin m1 e1, fin m2 e2 => roundDyadic (m1 * m2) (e1 + e2)
  | fin m _, inf s => if m = 0 then nan else inf (xor s (decide (m < 0)))
  | inf s, fin m _ => if m = 0 then nan else inf (xor s (decide (m < 0)))
  | inf s, inf t => inf (xor s t)
  | _, _ => nan

instance : Zero F64 := ⟨fin 0 0⟩

instance : Neg F64 := ⟨neg⟩

instance : Add F64 := ⟨add⟩

instance : Sub F64 := ⟨fun x y => add x (neg y)⟩

instance : Mul F64 := ⟨mul⟩

/-- The `double` `z` is finite and its value is the real number `v`. -/
def Is (z : F64) (v : ℝ) : Prop := ∃ m e : Int, z = fin m e ∧ (m : ℝ) * (2 : ℝ) ^ e = v

/-- The `double` `z` is finite and its value `v` is an integer of magnitude at most `B`. -/
def IsInt (B : Nat) (z : F64) (v : ℝ) : Prop :=
  ∃ n : Int, Is z n ∧ v = n ∧ n.natAbs ≤ B

end F64

/-! ## Operations -/

section Operations

variable {K : Type} [Add K] [Sub K] [Mul K] [Neg K]

/-- Guarded store through a nullable pointer: `if (ptr) *ptr = v;`. -/
def writeSlot (ptr : Option Slot) (v : K) (store : Slot → K) : Slot → K :=
  match ptr with
  | none => store
  | some s => Function.update store s v

/-- Transcription of `CConstraintMobileSlider::update`, operation by operation and in the
order of the source. The helper `actual_coords` of the constraint base class is a
parameter: it yields the coordinates and velocities of referenced point `i` in the
current model. With `K := F64` every operation rounds as the program's does. -/
def update (actual_coords : CAssembledRigidModel K → Fin 3 → PointRef K)
    (c : CConstraintMobileSlider K) (arm : CAssembledRigidModel K) :
    CAssembledRigidModel K :=
  let p := actual_coords arm 0
  let pr0 := actual_coords arm 1
  let pr1 := actual_coords arm 2
  let j := c.jacob
  { arm with
    Phi_ := Function.update arm.Phi_ c.idx_constr_
      ((pr1.x - pr0.x) * (p.y - pr0.y) - (pr1.y - pr0.y) * (p.x - pr0.x))
    dotPhi_ := Function.update arm.dotPhi_ c.idx_constr_
      ((pr1.dotx - pr0.dotx) * (p.y - pr0.y) + (pr1.x - pr0.x) * (p.doty - pr0.doty) -
        (pr1.doty - pr0.doty) * (p.x - pr0.x) - (pr1.y - pr0.y) * (p.dotx - pr0.dotx))
    Phi_q_ := arm.Phi_q_
      |> writeSlot (j.dPhi_dx 0) (pr0.y - pr1.y)
      |> writeSlot (j.dPhi_dy 0) (pr1.x - pr0.x)
      |> writeSlot (j.dPhi_dx 1) (-p.y + pr1.y)
      |> writeSlot (j.dPhi_dy 1) (p.x - pr1.x)
      |> writeSlot (j.dPhi_dx 2) (p.y - pr0.y)
      |> writeSlot (j.dPhi_dy 2) (-p.x + pr0.x)
    dotPhi_q_ := arm.dotPhi_q_
      |> writeSlot (j.dot_dPhi_dx 0) (pr0.doty - pr1.doty)
      |> writeSlot (j.dot_dPhi_dy 0) (pr1.dotx - pr0.dotx)
      |> writeSlot (j.dot_dPhi_dx 1) (-p.doty + pr1.doty)
      |> writeSlot (j.dot_dPhi_dy 1) (p.dotx - pr1.dotx)
      |> writeSlot (j.dot_dPhi_dx 2) (p.doty - pr0.doty)
      |> writeSlot (j.dot_dPhi_dy 2) (-p.dotx + pr0.dotx)
    dPhiqdq_dq_ := arm.dPhiqdq_dq_
      |> writeSlot (j.dPhiqdq_dx 0) (pr0.doty - pr1.doty)
      |> writeSlot (j.dPhiqdq_dy 0) (pr1.dotx - pr0.dotx)
      |> writeSlot (j.dPhiqdq_dx 1) (pr1.doty - p.doty)
      |> writeSlot (j.dPhiqdq_dy 1) (p.dotx - pr1.dotx)
      |> writeSlot (j.dPhiqdq_dx 2) (p.doty - pr0.doty)
      |> writeSlot (j.dPhiqdq_dy 2) (pr0.dotx - p.dotx) }

/-- Result of a call that works on the model by reference and may raise: the model as the
call leaves it, and the error message when an exception left the call. -/
structure Outcome (K : Type) where
  arm : CAssembledRigidModel K
  error : Option String

/-- Transcription of `CConstraintMobileSlider::buildSparseStructures`: the common helper
runs first, then `ASSERTMSG_(!points_[0]->fixed, ...)` raises when the sliding point is
fixed. The helper `commonbuildSparseStructures` of the constraint base class is a
parameter; an exception leaving it leaves the method as well. -/
def buildSparseStructures (commonbuildSparseStructures : CAssembledRigidModel K → Outcome K)
    (c : CConstraintMobileSlider K) (arm : CAssembledRigidModel K) : Outcome K :=
  let r := commonbuildSparseStructures arm
  match r.error with
  | some _ => r
  | none =>
    if !(c.points_ 0).fixed then r
    else { arm := r.arm, error := some "Useless constraint added to a fixed point!" }

/-! ### Observing one call of `update` on a given configuration -/

/-- Coordinates handed to `update` when the three referenced points are at `pts`
(index 0 = `p`, 1 = `pr[0]`, 2 = `pr[1]`). -/
def coordsOf (pts : Fin 3 → PointRef K) : CAssembledRigidModel K → Fin 3 → PointRef K :=
  fun _ i => pts i

/-- Value left in `Phi_[idx_constr_[0]]` by `update`. -/
def writtenPhi (c : CConstraintMobileSlider K) (arm : CAssembledRigidModel K)
    (pts : Fin 3 → PointRef K) : K :=
  (update (coordsOf pts) c arm).Phi_ c.idx_constr_

/-- Value left in `dotPhi_[idx_constr_[0]]` by `update`. -/
def writtenDotPhi (c : CConstraintMobileSlider K) (arm : CAssembledRigidModel K)
    (pts : Fin 3 → PointRef K) : K :=
  (update (coordsOf pts) c arm).dotPhi_ c.idx_constr_

/-- Same point with its `x` coordinate replaced. -/
def PointRef.withX (p : PointRef K) (s : K) : PointRef K := { p with x := s }

/-- Same point with its `y` coordinate replaced. -/
def PointRef.withY (p : PointRef K) (s : K) : PointRef K := { p with y := s }

/-- Configuration `pts` with the `x` coordinate of point `k` set to `s`. -/
def setX (pts : Fin 3 → PointRef K) (k : Fin 3) (s : K) : Fin 3 → PointRef K :=
  Function.update pts k ((pts k).withX s)

/-- Configuration `pts` with the `y` coordinate of point `k` set to `s`. -/
def setY (pts : Fin 3 → PointRef K) (k : Fin 3) (s : K) : Fin 3 → PointRef K :=
  Function.update pts k ((pts k).withY s)

/-- Position of a referenced point as a vector of the plane. -/
def PointRef.pos (p : PointRef K) : K × K := (p.x, p.y)

/-- Signed cross product of two plane vectors, `u × v = u.x * v.y - u.y * v.x`
(the geometric relation the slider residual is specified by). -/
def cross2 (u v : K × K) : K := u.1 * v.2 - u.2 * v.1

/-- Configuration reached after time `t` when every point moves with its own velocity;
velocities are unchanged. -/
def advance (pts : Fin 3 → PointRef K) (t : K) : Fin 3 → PointRef K :=
  fun k => { pts k with x := (pts k).x + t * (pts k).dotx, y := (pts k).y + t * (pts k).doty }

/-- Product of one Jacobian row, read from `store` at the slots `sx k`, `sy k` of the three
points, with the velocities of the points: the row of `Phi_q * dotq`. -/
def rowTimesVel (store : Slot → K) (sx sy : Fin 3 → Slot) (pts : Fin 3 → PointRef K) : K :=
  store (sx 0) * (pts 0).dotx + store (sy 0) * (pts 0).doty +
    (store (sx 1) * (pts 1).dotx + store (sy 1) * (pts 1).doty) +
    (store (sx 2) * (pts 2).dotx + store (sy 2) * (pts 2).doty)

end Operations

/-! ### Sample data -/

section Samples

variable {K : Type} [CommRing K]

/-- Slots of a slider whose three points are all variable: row 0, one column per
coordinate, in each of the three sparse stores. -/
def sampleJacob : JacobRow where
  dPhi_dx := fun k => some (0, 2 * k.val)
  dPhi_dy := fun k => some (0, 2 * k.val + 1)
  dot_dPhi_dx := fun k => some (0, 2 * k.val)
  dot_dPhi_dy := fun k => some (0, 2 * k.val + 1)
  dPhiqdq_dx := fun k => some (0, 2 * k.val)
  dPhiqdq_dy := fun k => some (0, 2 * k.val + 1)

/-- Column of the `x` coordinate of point `k` in `sampleJacob`. -/
def sampleSx (k : Fin 3) : Slot := (0, 2 * k.val)

/-- Column of the `y` coordinate of point `k` in `sampleJacob`. -/
def sampleSy (k : Fin 3) : Slot := (0, 2 * k.val + 1)

/-- A slider on three variable points. -/
def sampleSlider : CConstraintMobileSlider K :=
  { points_ := fun _ => ⟨0, 0, false⟩, idx_constr_ := 0, jacob := sampleJacob }

/-- Slots of a slider whose reference points (1 and 2) are fixed: only the sliding point
has columns. -/
def sampleJacobFixedRefs : JacobRow where
  dPhi_dx := ![some (0, 0), none, none]
  dPhi_dy := ![some (0, 1), none, none]
  dot_dPhi_dx := ![some (0, 0), none, none]
  dot_dPhi_dy := ![some (0, 1), none, none]
  dPhiqdq_dx := ![some (0, 0), none, none]
  dPhiqdq_dy := ![some (0, 1), none, none]

/-- A slider whose sliding point is variable and whose reference points are fixed. -/
def sampleSliderFixedRefs : CConstraintMobileSlider K :=
  { points_ := ![⟨0, 1, false⟩, ⟨0, 0, true⟩, ⟨1, 0, true⟩], idx_constr_ := 0,
    jacob := sampleJacobFixedRefs }

/-- A slider attached to three fixed points. -/
def sampleSliderAllFixed : CConstraintMobileSlider K :=
  { points_ := ![⟨0, 1, true⟩, ⟨0, 0, true⟩, ⟨1, 0, true⟩], idx_constr_ := 0,
    jacob := ⟨fun _ => none, fun _ => none, fun _ => none, fun _ => none, fun _ => none,
      fun _ => none⟩ }

/-- A common helper that registers nothing and returns normally. -/
def sampleCommon (arm : CAssembledRigidModel K) : Outcome K := { arm := arm, error := none }

/-- A model with cleared residuals and stores. -/
def sampleModel : CAssembledRigidModel K :=
  { q_ := [0, 1, 0, 0, 1, 0], dotq_ := [0, 1, 0, 0, 0, 0], Phi_ := fun _ => 0,
    dotPhi_ := fun _ => 0, Phi_q_ := fun _ => 0, dotPhi_q_ := fun _ => 0,
    dPhiqdq_dq_ := fun _ => 0 }

/-- The configuration `p = (0, 1)` moving with velocity `(0, 1)`, `pr[0] = (0, 0)` and
`pr[1] = (1, 0)` at rest. -/
def samplePts : Fin 3 → PointRef K :=
  ![⟨0, 1, 0, 1⟩, ⟨0, 0, 0, 0⟩, ⟨1, 0, 0, 0⟩]

end Samples

/-! ## Rigid body: attributes and cached mass sub-blocks -/

section Body

variable {K : Type}

/-- Plane point or vector (`mrpt::math::TPoint2D`). -/
structure TPoint2D (K : Type) where
  x : K
  y : K

/-- Matrix of size 2×2 (`Eigen::Matrix2d`). -/
abbrev Matrix2d (K : Type) : Type := Matrix (Fin 2) (Fin 2) K

/-- The three 2×2 blocks `M00`, `M11`, `M01` of the 4×4 mass matrix of a body. -/
structure MassBlocks (K : Type) where
  M00 : Matrix2d K
  M11 : Matrix2d K
  M01 : Matrix2d K

/-- State of a `CBody` that its accessors and the mass-block getters touch: the four
physical attributes, the cached blocks and the cache flag. -/
structure CBody (K : Type) where
  mass_ : K
  cog_ : TPoint2D K
  length_ : K
  I0_ : K
  M00_ : Matrix2d K
  M11_ : Matrix2d K
  M01_ : Matrix2d K
  mass_matrices_cached_ : Bool

/-- Target of a `double&` returned by a mutating accessor. -/
inductive ScalarRef where
  | mass_
  | length_
  | I0_
  deriving DecidableEq, Repr

/-- Target of the `TPoint2D&` returned by the mutating `cog()`. -/
inductive PointAttrRef where
  | cog_
  deriving DecidableEq, Repr

namespace CBody

/-- Const accessor `double mass() const`: the value returned and the body afterwards. -/
def mass (b : CBody K) : K × CBody K := (b.mass_, b)

/-- Mutating accessor `double& mass()`: clears the cache flag, returns a reference to
`mass_`. -/
def mass_mut (b : CBody K) : ScalarRef × CBody K :=
  (ScalarRef.mass_, { b with mass_matrices_cached_ := false })

/-- Const accessor `TPoint2D cog() const`. -/
def cog (b : CBody K) : TPoint2D K × CBody K := (b.cog_, b)

/-- Mutating accessor `TPoint2D& cog()`: clears the cache flag, returns a reference to
`cog_`. -/
def cog_mut (b : CBody K) : PointAttrRef × CBody K :=
  (PointAttrRef.cog_, { b with mass_matrices_cached_ := false })

/-- Const accessor `double length() const`. -/
def length (b : CBody K) : K × CBody K := (b.length_, b)

/-- Mutating accessor `double& length()`: clears the cache flag, returns a reference to
`length_`. -/
def length_mut (b : CBody K) : ScalarRef × CBody K :=
  (ScalarRef.length_, { b with mass_matrices_cached_ := false })

/-- Const accessor `double I0() const`. -/
def I0 (b : CBody K) : K × CBody K := (b.I0_, b)

/-- Mutating accessor `double& I0()`: clears the cache flag, returns a reference to
`I0_`. -/
def I0_mut (b : CBody K) : ScalarRef × CBody K :=
  (ScalarRef.I0_, { b with mass_matrices_cached_ := false })

/-- Assignment through a scalar reference; nothing but the referenced attribute is
written. -/
def assign (r : ScalarRef) (v : K) (b : CBody K) : CBody K :=
  match r with
  | ScalarRef.mass_ => { b with mass_ := v }
  | ScalarRef.length_ => { b with length_ := v }
  | ScalarRef.I0_ => { b with I0_ := v }

/-- Assignment through the reference to `cog_`. -/
def assignPoint (r : PointAttrRef) (v : TPoint2D K) (b : CBody K) : CBody K :=
  match r with
  | PointAttrRef.cog_ => { b with cog_ := v }

/-- Modelled from the spec: `evaluateMassMatrix` (its body is not part of the sources
at hand) "recomputes the three 2×2 blocks from mass, cog, length, inertia"; "results are
deterministic functions of the four scalar attributes". The formula is the parameter
`massFormula`. -/
def evaluateMassMatrix (massFormula : K → TPoint2D K → K → K → MassBlocks K) (b : CBody K) :
    MassBlocks K :=
  massFormula b.mass_ b.cog_ b.length_ b.I0_

/-- Modelled from the spec: `internal_update_mass_submatrices` (body not part of the
sources at hand) stores the blocks given by `evaluateMassMatrix` in the cache and marks
the cache valid. -/
def internal_update_mass_submatrices (massFormula : K → TPoint2D K → K → K → MassBlocks K)
    (b : CBody K) : CBody K :=
  let m := evaluateMassMatrix massFormula b
  { b with M00_ := m.M00, M11_ := m.M11, M01_ := m.M01, mass_matrices_cached_ := true }

/-- Modelled from the spec: `getM00` (body not part of the sources at hand) "return[s]
the cached blocks, recomputing lazily on first access after invalidation". -/
def getM00 (massFormula : K → TPoint2D K → K → K → MassBlocks K) (b : CBody K) :
    Matrix2d K × CBody K :=
  let b1 := if b.mass_matrices_cached_ then b
    else internal_update_mass_submatrices massFormula b
  (b1.M00_, b1)

/-- Modelled from the spec: `getM11`, as `getM00`. -/
def getM11 (massFormula : K → TPoint2D K → K → K → MassBlocks K) (b : CBody K) :
    Matrix2d K × CBody K :=
  let b1 := if b.mass_matrices_cached_ then b
    else internal_update_mass_submatrices massFormula b
  (b1.M11_, b1)

/-- Modelled from the spec: `getM01`, as `getM00`. -/
def getM01 (massFormula : K → TPoint2D K → K → K → MassBlocks K) (b : CBody K) :
    Matrix2d K × CBody K :=
  let b1 := if b.mass_matrices_cached_ then b
    else internal_update_mass_submatrices massFormula b
  (b1.M01_, b1)

end CBody

/-- One use of a body by client code: a mutation of an attribute through its mutating
accessor (`b.mass() = v`, ...), or a read of one mass sub-block. -/
inductive BodyOp (K : Type) where
  | setMass (v : K)
  | setCog (v : TPoint2D K)
  | setLength (v : K)
  | setI0 (v : K)
  | readM00
  | readM11
  | readM01

/-- Effect of one operation on the body, with the block returned when it is a read. -/
def stepBody (massFormula : K → TPoint2D K → K → K → MassBlocks K) (op : BodyOp K)
    (b : CBody K) : Option (Matrix2d K) × CBody K :=
  match op with
  | BodyOp.setMass v => (none, CBody.assign (CBody.mass_mut b).1 v (CBody.mass_mut b).2)
  | BodyOp.setCog v => (none, CBody.assignPoint (CBody.cog_mut b).1 v (CBody.cog_mut b).2)
  | BodyOp.setLength v => (none, CBody.assign (CBody.length_mut b).1 v (CBody.length_mut b).2)
  | BodyOp.setI0 v => (none, CBody.assign (CBody.I0_mut b).1 v (CBody.I0_mut b).2)
  | BodyOp.readM00 => (some (CBody.getM00 massFormula b).1, (CBody.getM00 massFormula b).2)
  | BodyOp.readM11 => (some (CBody.getM11 massFormula b).1, (CBody.getM11 massFormula b).2)
  | BodyOp.readM01 => (some (CBody.getM01 massFormula b).1, (CBody.getM01 massFormula b).2)

/-- Blocks returned by the reads of a sequence of operations, in order. -/
def runBody (massFormula : K → TPoint2D K → K → K → MassBlocks K) :
    List (BodyOp K) → CBody K → List (Matrix2d K)
  | [], _ => []
  | op :: ops, b =>
    match (stepBody massFormula op b).1 with
    | some m => m :: runBody massFormula ops (stepBody massFormula op b).2
    | none => runBody massFormula ops (stepBody massFormula op b).2

/-- The four attributes of a body, the state of the cache-free reference. -/
structure BodyAttrs (K : Type) where
  mass : K
  cog : TPoint2D K
  length : K
  I0 : K

/-- Attributes currently stored in a body. -/
def CBody.attrs (b : CBody K) : BodyAttrs K :=
  { mass := b.mass_, cog := b.cog_, length := b.length_, I0 := b.I0_ }

/-- Cache-free reference, following the specification of cache coherence: a mutation
replaces the attribute, a read evaluates the mass formula on the attribute values
current at the time of the read. -/
def runFresh (massFormula : K → TPoint2D K → K → K → MassBlocks K) :
    List (BodyOp K) → BodyAttrs K → List (Matrix2d K)
  | [], _ => []
  | BodyOp.setMass v :: ops, a => runFresh massFormula ops { a with mass := v }
  | BodyOp.setCog v :: ops, a => runFresh massFormula ops { a with cog := v }
  | BodyOp.setLength v :: ops, a => runFresh massFormula ops { a with length := v }
  | BodyOp.setI0 v :: ops, a => runFresh massFormula ops { a with I0 := v }
  | BodyOp.readM00 :: ops, a =>
    (massFormula a.mass a.cog a.length a.I0).M00 :: runFresh massFormula ops a
  | BodyOp.readM11 :: ops, a =>
    (massFormula a.mass a.cog a.length a.I0).M11 :: runFresh massFormula ops a
  | BodyOp.readM01 :: ops, a =>
    (massFormula a.mass a.cog a.length a.I0).M01 :: runFresh massFormula ops a

/-- The cache of a body is coherent: when the flag says the blocks are cached, the stored
blocks are those of the current attributes. -/
def CBody.Coherent (massFormula : K → TPoint2D K → K → K → MassBlocks K) (b : CBody K) :
    Prop :=
  b.mass_matrices_cached_ = true →
    b.M00_ = (CBody.evaluateMassMatrix massFormula b).M00 ∧
      b.M11_ = (CBody.evaluateMassMatrix massFormula b).M11 ∧
      b.M01_ = (CBody.evaluateMassMatrix massFormula b).M01

/-- A mass formula used for sample evaluations: a point mass spread on the diagonal. -/
def sampleMassFormula (m : Int) (_cog : TPoint2D Int) (len : Int) (i0 : Int) :
    MassBlocks Int :=
  { M00 := !![m, 0; 0, m], M11 := !![i0, 0; 0, i0], M01 := !![len, 0; 0, len] }

/-- A body whose cache flag is cleared and whose stored blocks are not yet computed. -/
def sampleBody : CBody Int :=
  { mass_ := 1, cog_ := ⟨0, 0⟩, length_ := 2, I0_ := 3, M00_ := 0, M11_ := 0, M01_ := 0,
    mass_matrices_cached_ := false }

end Body

/-! ## Constraint factors: residuals of the assembled model on a proposed state -/

section Factors

variable {K : Type} [Zero K] [Add K] [Sub K] [Mul K] [Neg K]

/-- Modelled from the spec: a mobile slider as registered in an assembled model. Besides
the constraint it records, for each referenced point, where the `x` and `y` of the point
sit in `q` when the point is variable, and nothing when it is fixed ("the mapping from
logical mechanism points to slices of those vectors, distinguishing fixed (non-variable)
points from free points"). -/
structure RegisteredSlider (K : Type) where
  constraint : CConstraintMobileSlider K
  pointDOFs_ : Fin 3 → Option (Nat × Nat)

/-- Modelled from the spec: `actual_coords` of the constraint base class (not part of
the sources at hand). "Given a point index, returns its current position and, if
applicable, references into q̇/q̈ at the corresponding offset. Fixed points return a
read-only position with no velocity/acceleration backing": a variable point is read from
`q_` and `dotq_`, a fixed point has its own coordinates and does not move. A read past
the end of a vector is undefined in the program and gives no result here (`none`). -/
def actual_coords (s : RegisteredSlider K) (arm : CAssembledRigidModel K) (i : Fin 3) :
    Option (PointRef K) :=
  match s.pointDOFs_ i with
  | some (dx, dy) =>
    match arm.q_[dx]?, arm.q_[dy]?, arm.dotq_[dx]?, arm.dotq_[dy]? with
    | some x, some y, some vx, some vy => some { x := x, y := y, dotx := vx, doty := vy }
    | _, _, _, _ => none
  | none =>
    some { x := (s.constraint.points_ i).x, y := (s.constraint.points_ i).y,
           dotx := 0, doty := 0 }

/-- One `update` of a registered slider on the model, with the coordinates that
`actual_coords` yields; no result when one of the three reads is undefined. -/
def updateRegistered (s : RegisteredSlider K) (arm : CAssembledRigidModel K) :
    Option (CAssembledRigidModel K) :=
  match actual_coords s arm 0, actual_coords s arm 1, actual_coords s arm 2 with
  | some p, some pr0, some pr1 => some (update (coordsOf ![p, pr0, pr1]) s.constraint arm)
  | _, _, _ => none

/-- The part of an assembled model that is fixed once the constraints are registered:
the constraints (here all mobile sliders), the number of constraint rows and the number
of coordinates. -/
structure ModelStructure (K : Type) where
  constraints_ : List (RegisteredSlider K)
  nRows : Nat
  nCols : Nat

/-- Every coordinate index used by a constraint of the model is below the number of
coordinates. -/
def ModelStructure.WellFormed (ms : ModelStructure K) : Prop :=
  ∀ s ∈ ms.constraints_, ∀ i : Fin 3,
    (s.pointDOFs_ i).all (fun d => decide (d.1 < ms.nCols ∧ d.2 < ms.nCols)) = true

/-- Modelled from the spec: `update_numeric_Phi_and_Jacobians` (not part of the sources
at hand) "invokes `update` on every constraint", in order, on the same model; no result
when a read is undefined. -/
def update_numeric_Phi_and_Jacobians (ms : ModelStructure K) (arm : CAssembledRigidModel K) :
    Option (CAssembledRigidModel K) :=
  ms.constraints_.foldlM (fun a s => updateRegistered s a) arm

/-- Modelled from the spec: `getPhi_q_dense` (not part of the sources at hand), the
constraint Jacobian as a dense matrix, "rows = constraint equations, columns =
generalized coordinates", given as the list of its rows; an entry that no constraint
writes holds what the store holds there. -/
def getPhi_q_dense (ms : ModelStructure K) (arm : CAssembledRigidModel K) : List (List K) :=
  (List.range ms.nRows).map fun i => (List.range ms.nCols).map fun j => arm.Phi_q_ (i, j)

/-- Modelled from the spec: `getdPhiqdq_dq_dense` (not part of the sources at hand), the
bilinear term as a dense matrix, as `getPhi_q_dense`. -/
def getdPhiqdq_dq_dense (ms : ModelStructure K) (arm : CAssembledRigidModel K) :
    List (List K) :=
  (List.range ms.nRows).map fun i => (List.range ms.nCols).map fun j => arm.dPhiqdq_dq_ (i, j)

/-- Product of one matrix row with a vector of the same size: the products of the
entries, added from left to right (the source leaves the order of the additions to the
linear-algebra library). -/
def rowDot (row v : List K) : K :=
  match List.zipWith (fun a b => a * b) row v with
  | [] => 0
  | t :: ts => ts.foldl (fun acc x => acc + x) t

/-- Product of a dense matrix with a vector (`Phi_q * dotq_k.vector()`); undefined, as in
the program, when the size of the vector is not the number of columns. -/
def mulVec (M : List (List K)) (v : List K) : Option (List K) :=
  if M.all (fun row => decide (row.length = v.length)) then some (M.map fun row => rowDot row v)
  else none

/-- Vector scaled by a number. -/
def vscale (c : K) (v : List K) : List K := v.map fun a => c * a

/-- Sum of two vectors of the same size. -/
def vadd (a b : List K) : List K := List.zipWith (fun x y => x + y) a b

/-- What a factor hands back on a normal return: the residual and the Jacobian blocks
that were requested through the optional output arguments. -/
structure FactorResult (K : Type) where
  err : List K
  H1 : Option (List (List K))
  H2 : Option (List (List K))

/-- How one evaluation of a factor ends: it raises, it returns, or it runs into a read
or a product that the program leaves undefined. -/
inductive FactorReturn (K : Type) where
  | raised (msg : String)
  | returned (r : FactorResult K)
  | undefined

/-- Result of one evaluation of a factor: the shared model as the call leaves it (when
the evaluation is undefined: as it stood when that point was reached), and how the call
ended. -/
structure FactorOutcome (K : Type) where
  arm : CAssembledRigidModel K
  result : FactorReturn K

/-- Transcription of `FactorConstraints::evaluateError`; `wantH1` tells whether the
optional output `H1` was passed. `MRPT_START` and `MRPT_END` pass on what the body
raises. -/
def FactorConstraints.evaluateError (ms : ModelStructure K) (arm : CAssembledRigidModel K)
    (q_k : List K) (wantH1 : Bool) : FactorOutcome K :=
  let n := q_k.length
  if n < 1 then { arm := arm, result := FactorReturn.raised "Empty state vector!" }
  else
    let arm1 := { arm with q_ := q_k }
    match update_numeric_Phi_and_Jacobians ms arm1 with
    | none => { arm := arm1, result := FactorReturn.undefined }
    | some arm2 =>
      { arm := arm2
        result := FactorReturn.returned
          { err := (List.range ms.nRows).map arm2.Phi_
            H1 := if wantH1 then some (getPhi_q_dense ms arm2) else none
            H2 := none } }

/-- Transcription of `FactorConstraintsVel::evaluateError`; `wantH1`, `wantH2` tell
whether the optional outputs were passed. The two assertions come first, then the model
receives `q_k` and `dotq_k`. -/
def FactorConstraintsVel.evaluateError (ms : ModelStructure K)
    (arm : CAssembledRigidModel K) (q_k dotq_k : List K) (wantH1 wantH2 : Bool) :
    FactorOutcome K :=
  if dotq_k.length ≠ q_k.length then
    { arm := arm, result := FactorReturn.raised "ASSERT_EQUAL_(dotq_k.size(), q_k.size())" }
  else if ¬ (q_k.length > 0) then
    { arm := arm, result := FactorReturn.raised "ASSERT_(q_k.size() > 0)" }
  else
    let arm1 := { arm with q_ := q_k, dotq_ := dotq_k }
    match update_numeric_Phi_and_Jacobians ms arm1 with
    | none => { arm := arm1, result := FactorReturn.undefined }
    | some arm2 =>
      let Phi_q := getPhi_q_dense ms arm2
      let dPhiqdq_dq := getdPhiqdq_dq_dense ms arm2
      match mulVec Phi_q dotq_k with
      | none => { arm := arm2, result := FactorReturn.undefined }
      | some err =>
        { arm := arm2
          result := FactorReturn.returned
            { err := err
              H1 := if wantH1 then some dPhiqdq_dq else none
              H2 := if wantH2 then some Phi_q else none } }

/-- Residual returned by an evaluation, when it returned. -/
def FactorOutcome.residual (o : FactorOutcome K) : Option (List K) :=
  match o.result with
  | FactorReturn.returned r => some r.err
  | _ => none

/-- Block `H2` handed back by an evaluation, when it returned and `H2` was requested. -/
def FactorOutcome.jacobianH2 (o : FactorOutcome K) : Option (List (List K)) :=
  match o.result with
  | FactorReturn.returned r => r.H2
  | _ => none

/-- Error raised by an evaluation, when it raised. -/
def FactorOutcome.raised (o : FactorOutcome K) : Option String :=
  match o.result with
  | FactorReturn.raised e => some e
  | _ => none

/-- The dense constraint Jacobian of the model brought to the positions `q_k` and held
at rest, written `Phi_q(q_k)`: no velocity enters it. -/
def jacobianAt (ms : ModelStructure K) (arm : CAssembledRigidModel K) (q_k : List K) :
    Option (List (List K)) :=
  (update_numeric_Phi_and_Jacobians ms
    { arm with q_ := q_k, dotq_ := q_k.map fun _ => 0 }).map (getPhi_q_dense ms)

end Factors

section FactorSamples

variable {K : Type} [CommRing K]

/-- The model of one slider on three variable points, coordinates `x`, `y` of point `k`
at positions `2k`, `2k + 1` of `q`. -/
def sampleStructure : ModelStructure K :=
  { constraints_ := [{ constraint := sampleSlider,
                       pointDOFs_ := fun k => some (2 * k.val, 2 * k.val + 1) }]
    nRows := 1
    nCols := 6 }

/-- A state of the sample model: `p = (0, 1)`, `pr[0] = (0, 0)`, `pr[1] = (1, 0)`. -/
def sampleQ : List ℤ := [0, 1, 0, 0, 1, 0]

/-- A velocity for the sample model: `p` moves with velocity `(1, 2)`. -/
def sampleDotq : List ℤ := [1, 2, 0, 0, 0, 0]

/-- A slider whose sliding point is fixed and whose two reference points are variable. -/
def sampleSliderFixedSliding : CConstraintMobileSlider K :=
  { points_ := ![⟨0, 1, true⟩, ⟨0, 0, false⟩, ⟨1, 0, false⟩], idx_constr_ := 0,
    jacob := ⟨![none, some (0, 0), some (0, 2)], ![none, some (0, 1), some (0, 3)],
      ![none, some (0, 0), some (0, 2)], ![none, some (0, 1), some (0, 3)],
      ![none, some (0, 0), some (0, 2)], ![none, some (0, 1), some (0, 3)]⟩ }

/-- A common helper that leaves a visible trace in the model (it sets residual row 0 to
the value 7) and returns normally. -/
def sampleCommonTracing (arm : CAssembledRigidModel K) : Outcome K :=
  { arm := { arm with Phi_ := Function.update arm.Phi_ 0 7 }, error := none }

end FactorSamples

/-! ### Sample data in binary64 -/

/-- The integer `n` as a `double`. -/
def F64.ofInt (n : Int) : F64 := F64.roundRatio n 1

/-- A point at rest with decimal coordinates `x * 10 ^ (-k)`, `y * 10 ^ (-k)`. -/
def restingPoint (x y : Int) (k : Nat) : PointRef F64 :=
  { x := F64.ofDecimal x k, y := F64.ofDecimal y k, dotx := 0, doty := 0 }

/-- A point with decimal coordinates and velocities, each `n * 10 ^ (-k)`. -/
def movingPoint (x y vx vy : Int) (k : Nat) : PointRef F64 :=
  { x := F64.ofDecimal x k, y := F64.ofDecimal y k,
    dotx := F64.ofDecimal vx k, doty := F64.ofDecimal vy k }

/-- The real configuration `ptsR` holds the exact values of the finite doubles of the
configuration `ptsF`. -/
def Represents (ptsF : Fin 3 → PointRef F64) (ptsR : Fin 3 → PointRef ℝ) : Prop :=
  ∀ k, F64.Is (ptsF k).x (ptsR k).x ∧ F64.Is (ptsF k).y (ptsR k).y ∧
    F64.Is (ptsF k).dotx (ptsR k).dotx ∧ F64.Is (ptsF k).doty (ptsR k).doty

/-- Every coordinate and velocity of the configuration `ptsF` is a finite `double` holding
an integer of magnitude at most `B`, and `ptsR` holds the same integers. -/
def OnGrid (B : Nat) (ptsF : Fin 3 → PointRef F64) (ptsR : Fin 3 → PointRef ℝ) : Prop :=
  ∀ k, F64.IsInt B (ptsF k).x (ptsR k).x ∧ F64.IsInt B (ptsF k).y (ptsR k).y ∧
    F64.IsInt B (ptsF k).dotx (ptsR k).dotx ∧ F64.IsInt B (ptsF k).doty (ptsR k).doty

/-- The configuration of doubles with the integer coordinates and velocities of the
table `t`: row `k` holds `x`, `y`, `dotx`, `doty` of point `k`. -/
def gridPts (t : Fin 3 → Fin 4 → Int) : Fin 3 → PointRef F64 :=
  fun k => { x := F64.ofInt (t k 0), y := F64.ofInt (t k 1),
             dotx := F64.ofInt (t k 2), doty := F64.ofInt (t k 3) }

/-- The real configuration with the integer coordinates and velocities of the table `t`. -/
def gridPtsR (t : Fin 3 → Fin 4 → Int) : Fin 3 → PointRef ℝ :=
  fun k => { x := t k 0, y := t k 1, dotx := t k 2, doty := t k 3 }

/-- Three points off a common line by one unit of area: `p = (94906268, 94906267)`,
`pr[0] = (0, 0)`, `pr[1] = (94906267, 94906266)`, at rest. -/
def nearLineTable : Fin 3 → Fin 4 → Int :=
  ![![94906268, 94906267, 0, 0], ![0, 0, 0, 0], ![94906267, 94906266, 0, 0]]

/-- A large coordinate that a `double` holds exactly: `2 ^ 600`. -/
def farCoordinate : Int := 2 ^ 600

/-- Three points of one line, far apart: `p = (2 ^ 600, 2 ^ 600)`, `pr[0] = (0, 0)`,
`pr[1] = (-2 ^ 600, -2 ^ 600)`, at rest. -/
def farLineTable : Fin 3 → Fin 4 → Int :=
  ![![farCoordinate, farCoordinate, 0, 0], ![0, 0, 0, 0],
    ![-farCoordinate, -farCoordinate, 0, 0]]

/-- The sample configuration as a table: `p = (0, 1)` moving at `(0, 1)`, `pr[0] = (0, 0)`
and `pr[1] = (1, 0)` at rest. -/
def sampleTable : Fin 3 → Fin 4 → Int :=
  ![![0, 1, 0, 1], ![0, 0, 0, 0], ![1, 0, 0, 0]]

/-- Configuration `p = (2, 3)`, `pr[0] = (1, 0)`, `pr[1] = (0, 1)`, in which only `pr[0]`
moves, at velocity `(0.7, 0)`. -/
def tiltedPts : Fin 3 → PointRef F64 :=
  ![movingPoint 20 30 0 0 1, movingPoint 10 0 7 0 1, movingPoint 0 10 0 0 1]

/-- Configuration `p = (1, 1)`, `pr[0] = (0, 0)`, `pr[1] = (3, 0)`, in which only `pr[0]`
moves, at velocity `(0, 0.3)`. -/
def benchPts : Fin 3 → PointRef F64 :=
  ![movingPoint 10 10 0 0 1, movingPoint 0 0 0 3 1, movingPoint 30 0 0 0 1]

/-- Configuration `p = (0, 0)` at rest, `pr[0] = (0, 0)` moving at `(0, 0.9)`,
`pr[1] = (0, 1)` moving at `(0, 0.7)`. -/
def driftPts : Fin 3 → PointRef F64 :=
  ![movingPoint 0 0 0 0 1, movingPoint 0 0 0 9 1, movingPoint 0 10 0 7 1]

/-- All three points at the origin, `p` at rest, `pr[0]` moving at `(0, 10 ^ 16)` and
`pr[1]` at `(0, 1)`; a `double` holds each of these integers exactly. -/
def fastTable : Fin 3 → Fin 4 → Int :=
  ![![0, 0, 0, 0], ![0, 0, 0, 10000000000000000], ![0, 0, 0, 1]]

/-- Configuration at rest: `p = (0.1, 0.2)`, `pr[0] = (0.3, 0.4)`, `pr[1] = (0.7, 0.9)`. -/
def decimalPts : Fin 3 → PointRef F64 :=
  ![restingPoint 1 2 1, restingPoint 3 4 1, restingPoint 7 9 1]

/-- A slider on three variable points, in binary64. -/
def sampleSliderF : CConstraintMobileSlider F64 :=
  { points_ := fun _ => ⟨0, 0, false⟩, idx_constr_ := 0, jacob := sampleJacob }

/-- A model with cleared residuals and stores, in binary64. -/
def sampleModelF : CAssembledRigidModel F64 :=
  { q_ := [0, 0, 0, 0, 0, 0], dotq_ := [0, 0, 0, 0, 0, 0], Phi_ := fun _ => 0,
    dotPhi_ := fun _ => 0, Phi_q_ := fun _ => 0, dotPhi_q_ := fun _ => 0,
    dPhiqdq_dq_ := fun _ => 0 }

/-- The model of one slider on three variable points, in binary64. -/
def sampleStructureF : ModelStructure F64 :=
  { constraints_ := [{ constraint := sampleSliderF,
                       pointDOFs_ := fun k => some (2 * k.val, 2 * k.val + 1) }]
    nRows := 1
    nCols := 6 }

/-- A state of the binary64 sample model: `p = (0, 0)`, `pr[0] = (0, 0)`,
`pr[1] = (0.1, 0)`. -/
def sampleQF : List F64 := [0, 0, 0, 0, F64.ofDecimal 1 1, 0]

/-- A velocity with one non-zero entry, the decimal `b * 10 ^ (-1)` for `doty` of `p`. -/
def velocityF (b : Int) : List F64 := [0, F64.ofDecimal b 1, 0, 0, 0, 0]


/-- The number `d` is the time derivative along the motion of the quantity `E` of the
configuration, spelled out by the chain rule: the sum over the six coordinates of the
partial derivative of `E` with respect to the coordinate times its velocity. -/
def IsSumOfPartialsTimesVel (E : (Fin 3 → PointRef ℝ) → ℝ) (pts : Fin 3 → PointRef ℝ)
    (d : ℝ) : Prop :=
  ∃ gx gy : Fin 3 → ℝ,
    (∀ m, HasDerivAt (fun s => E (setX pts m s)) (gx m) (pts m).x) ∧
      (∀ m, HasDerivAt (fun s => E (setY pts m s)) (gy m) (pts m).y) ∧
      d = gx 0 * (pts 0).dotx + gy 0 * (pts 0).doty +
        (gx 1 * (pts 1).dotx + gy 1 * (pts 1).doty) +
        (gx 2 * (pts 2).dotx + gy 2 * (pts 2).doty)

/-! ## Theorems -/

section Binary64

/-- A finite `double` has one value. -/
theorem F64.Is.unique {z : F64} {v w : ℝ} (h1 : F64.Is z v) (h2 : F64.Is z w) : v = w := by
  obtain ⟨m1, e1, hz1, hv1⟩ := h1
  obtain ⟨m2, e2, hz2, hv2⟩ := h2
  rw [hz1] at hz2
  injection hz2 with hm he
  rw [← hv1, ← hv2, hm, he]

/-- Unary minus is exact. -/
theorem F64.is_neg {a : F64} {A : ℝ} (ha : F64.Is a A) : F64.Is (-a) (-A) := by
  obtain ⟨m, e, rfl, rfl⟩ := ha
  refine ⟨-m, e, rfl, ?_⟩
  push_cast
  ring

/-- Zero has no binary digit. -/
theorem F64.bitsAux_zero (fuel : Nat) : F64.bitsAux fuel 0 = 0 := by
  cases fuel <;> simp [F64.bitsAux]

/-- With enough fuel, `bitsAux` counts the binary digits of `n`. -/
theorem F64.bitsAux_spec : ∀ (fuel n : Nat), n ≤ fuel →
    n < 2 ^ F64.bitsAux fuel n ∧ (0 < n → 2 ^ (F64.bitsAux fuel n - 1) ≤ n) := by
  intro fuel
  induction fuel with
  | zero =>
    intro n hn
    have : n = 0 := by omega
    subst this
    simp [F64.bitsAux]
  | succ f ih =>
    intro n hn
    by_cases h0 : n = 0
    · subst h0
      simp [F64.bitsAux]
    · have hle : n / 2 ≤ f := by omega
      obtain ⟨h1, h2⟩ := ih (n / 2) hle
      simp only [F64.bitsAux, if_neg h0, Nat.add_sub_cancel]
      constructor
      · rw [pow_succ]
        omega
      · intro _
        by_cases hh : n / 2 = 0
        · rw [hh, F64.bitsAux_zero]
          simp
          omega
        · have h3 := h2 (by omega)
          have hb : 1 ≤ F64.bitsAux f (n / 2) := by
            by_contra hc
            have : F64.bitsAux f (n / 2) = 0 := by omega
            rw [this] at h1
            simp at h1
            exact hh h1
          have : 2 ^ F64.bitsAux f (n / 2) = 2 * 2 ^ (F64.bitsAux f (n / 2) - 1) := by
            rw [← pow_succ']
            congr 1
            omega
          omega

/-- Upper bound given by the position of the leading digit. -/
theorem F64.lt_pow_ilog2 (n : Nat) : n < 2 ^ (F64.ilog2 n + 1) := by
  obtain ⟨h1, -⟩ := F64.bitsAux_spec n n le_rfl
  unfold F64.ilog2
  by_cases hb : F64.bitsAux n n = 0
  · rw [hb] at h1
    rw [hb]
    simp at h1
    simp [h1]
  · have : F64.bitsAux n n - 1 + 1 = F64.bitsAux n n := by omega
    rw [this]
    exact h1

/-- Lower bound given by the position of the leading digit. -/
theorem F64.pow_ilog2_le (n : Nat) (hn : 0 < n) : 2 ^ F64.ilog2 n ≤ n :=
  (F64.bitsAux_spec n n le_rfl).2 hn

/-- A fraction below `2 ^ 53` has exponent at most 52. -/
theorem F64.ratioExponent_le (c d : Nat) (hc : 0 < c) (hc53 : c < 2 ^ 53) (hd : 0 < d) :
    F64.ratioExponent (c * d) d ≤ 52 := by
  have ha : 0 < c * d := Nat.mul_pos hc hd
  have h1 := F64.pow_ilog2_le (c * d) ha
  have h2 := F64.lt_pow_ilog2 d
  have hla : F64.ilog2 (c * d) ≤ F64.ilog2 d + 53 := by
    by_contra hcon
    have h3 : F64.ilog2 d + 54 ≤ F64.ilog2 (c * d) := by omega
    have h4 : 2 ^ (F64.ilog2 d + 54) ≤ 2 ^ F64.ilog2 (c * d) :=
      Nat.pow_le_pow_right (by norm_num) h3
    have h5 : c * d < 2 ^ 53 * 2 ^ (F64.ilog2 d + 1) :=
      Nat.mul_lt_mul'' hc53 h2
    have h6 : 2 ^ 53 * 2 ^ (F64.ilog2 d + 1) = 2 ^ (F64.ilog2 d + 54) := by
      rw [← pow_add]
      congr 1
      omega
    omega
  unfold F64.ratioExponent
  split_ifs with hb
  · by_contra hcon
    have h3 : F64.ilog2 (c * d) = F64.ilog2 d + 53 := by omega
    rw [h3, pow_add] at hb
    have h7 : d * 2 ^ F64.ilog2 d * 2 ^ 53 ≤ d * 2 ^ F64.ilog2 d * c := by
      calc d * 2 ^ F64.ilog2 d * 2 ^ 53 = d * (2 ^ F64.ilog2 d * 2 ^ 53) := by ring
        _ ≤ c * d * 2 ^ F64.ilog2 d := hb
        _ = d * 2 ^ F64.ilog2 d * c := by ring
    have h8 : 0 < d * 2 ^ F64.ilog2 d := Nat.mul_pos hd (by positivity)
    have := Nat.le_of_mul_le_mul_left h7 h8
    omega
  · omega

/-- An integer counted in units of `2 ^ q`, `q ≤ 0`, needs no rounding. -/
theorem F64.roundToQuantum_exact (c d : Nat) (hd : 0 < d) (q : Int) (hq : q ≤ 0) :
    F64.roundToQuantum (c * d) d q = c * 2 ^ (-q).toNat := by
  have hq0 : q.toNat = 0 := Int.toNat_eq_zero.mpr hq
  have hN : c * d * 2 ^ (-q).toNat = c * 2 ^ (-q).toNat * d := by ring
  simp only [F64.roundToQuantum, hq0, pow_zero, mul_one, hN, Nat.mul_mod_left,
    Nat.mul_div_cancel _ hd, Nat.mul_mod_left]
  simp [hd]

/-- A nonzero significand with exponent `q ≤ 0` packs to the finite `double` of that value. -/
theorem F64.pack_is (s : Bool) (m : Nat) (q : Int) (hm : m ≠ 0) (hq : q ≤ 0) :
    F64.Is (F64.pack s m q) ((if s then -(m : ℝ) else (m : ℝ)) * (2 : ℝ) ^ q) := by
  unfold F64.pack
  by_cases h53 : m = 2 ^ 53
  · simp only [h53, if_true]
    rw [if_neg (by omega), if_neg (by norm_num)]
    refine ⟨_, _, rfl, ?_⟩
    rw [zpow_add₀ (by norm_num : (2 : ℝ) ≠ 0)]
    cases s <;> simp <;> ring
  · simp only [if_neg h53]
    rw [if_neg (by omega), if_neg hm]
    refine ⟨_, _, rfl, ?_⟩
    cases s <;> simp

/-- An integer of magnitude below `2 ^ 53` rounds to itself. -/
theorem F64.roundRatio_exact (n : Int) (d : Nat) (hd : 0 < d) (hn : n.natAbs < 2 ^ 53) :
    F64.Is (F64.roundRatio (n * d) d) n := by
  by_cases h0 : n = 0
  · subst h0
    exact ⟨0, 0, by simp [F64.roundRatio], by simp⟩
  have hnd : n * (d : Int) ≠ 0 := mul_ne_zero h0 (by exact_mod_cast hd.ne')
  have ha : (n * (d : Int)).natAbs = n.natAbs * d := by simp [Int.natAbs_mul]
  have hc : 0 < n.natAbs := Int.natAbs_pos.mpr h0
  have he := F64.ratioExponent_le n.natAbs d hc hn hd
  have hq : max (F64.ratioExponent (n.natAbs * d) d - 52) (-1074) ≤ 0 :=
    max_le (by omega) (by norm_num)
  have hsign : decide (n * (d : Int) < 0) = decide (n < 0) := by
    have hdpos : (0 : Int) < d := by exact_mod_cast hd
    simp [mul_neg_iff, hdpos, not_lt.mpr hdpos.le]
  simp only [F64.roundRatio, if_neg hnd, ha, F64.roundToQuantum_exact _ _ hd _ hq, hsign]
  have hm : n.natAbs * 2 ^ (-max (F64.ratioExponent (n.natAbs * d) d - 52) (-1074)).toNat ≠ 0 :=
    Nat.mul_ne_zero hc.ne' (by positivity)
  have h := F64.pack_is (decide (n < 0)) _ _ hm hq
  convert h using 1
  generalize max (F64.ratioExponent (n.natAbs * d) d - 52) (-1074) = q at hq
  have hpow : ((2 : ℝ) ^ (-q).toNat) * (2 : ℝ) ^ q = 1 := by
    rw [← zpow_natCast, Int.toNat_of_nonneg (by omega), ← zpow_add₀ (by norm_num : (2 : ℝ) ≠ 0)]
    simp
  have habs : ((n.natAbs : Nat) : ℝ) = |(n : ℝ)| := by
    rw [Nat.cast_natAbs, Int.cast_abs]
  by_cases hneg : n < 0
  · have : (n : ℝ) < 0 := by exact_mod_cast hneg
    simp only [hneg, decide_True, if_true]
    push_cast
    rw [habs, abs_of_neg this]
    linear_combination (-(n : ℝ)) * hpow
  · have : (0 : ℝ) ≤ n := by exact_mod_cast (not_lt.mp hneg)
    simp only [hneg, decide_False]
    push_cast
    rw [habs, abs_of_nonneg this]
    linear_combination (-(n : ℝ)) * hpow

/-- A dyadic number that is an integer of magnitude below `2 ^ 53` rounds to itself. -/
theorem F64.roundDyadic_exact (M E n : Int) (h : (M : ℝ) * (2 : ℝ) ^ E = n)
    (hn : n.natAbs < 2 ^ 53) : F64.Is (F64.roundDyadic M E) n := by
  unfold F64.roundDyadic
  have key : M * 2 ^ E.toNat = n * ((2 ^ (-E).toNat : Nat) : Int) := by
    have : ((M * 2 ^ E.toNat : Int) : ℝ) = ((n * ((2 ^ (-E).toNat : Nat) : Int) : Int) : ℝ) := by
      push_cast
      rcases le_total 0 E with hE | hE
      · have h1 : (-E).toNat = 0 := Int.toNat_eq_zero.mpr (by omega)
        rw [h1, pow_zero, mul_one, ← h, ← zpow_natCast, Int.toNat_of_nonneg hE]
      · have h1 : E.toNat = 0 := Int.toNat_eq_zero.mpr hE
        rw [h1, pow_zero, mul_one, ← h, ← zpow_natCast, Int.toNat_of_nonneg (by omega),
          mul_assoc, ← zpow_add₀ (by norm_num : (2 : ℝ) ≠ 0)]
        simp
    exact_mod_cast this
  rw [key]
  exact F64.roundRatio_exact n _ (by positivity) hn

/-- The sum of two finite `double`s is their exact sum, rounded once. -/
theorem F64.add_rounds {a b : F64} {A B : ℝ} (ha : F64.Is a A) (hb : F64.Is b B) :
    ∃ M E : Int, a + b = F64.roundDyadic M E ∧ (M : ℝ) * (2 : ℝ) ^ E = A + B := by
  obtain ⟨m1, e1, rfl, rfl⟩ := ha
  obtain ⟨m2, e2, rfl, rfl⟩ := hb
  refine ⟨m1 * 2 ^ (e1 - min e1 e2).toNat + m2 * 2 ^ (e2 - min e1 e2).toNat, min e1 e2,
    rfl, ?_⟩
  have h1 : (0 : Int) ≤ e1 - min e1 e2 := by
    have := min_le_left e1 e2
    omega
  have h2 : (0 : Int) ≤ e2 - min e1 e2 := by
    have := min_le_right e1 e2
    omega
  have p1 : (2 : ℝ) ^ (e1 - min e1 e2).toNat * (2 : ℝ) ^ (min e1 e2) = (2 : ℝ) ^ e1 := by
    rw [← zpow_natCast, Int.toNat_of_nonneg h1, ← zpow_add₀ (by norm_num : (2 : ℝ) ≠ 0)]
    congr 1
    ring
  have p2 : (2 : ℝ) ^ (e2 - min e1 e2).toNat * (2 : ℝ) ^ (min e1 e2) = (2 : ℝ) ^ e2 := by
    rw [← zpow_natCast, Int.toNat_of_nonneg h2, ← zpow_add₀ (by norm_num : (2 : ℝ) ≠ 0)]
    congr 1
    ring
  push_cast
  rw [add_mul, mul_assoc, mul_assoc, p1, p2]

/-- The difference of two finite `double`s is their exact difference, rounded once. -/
theorem F64.sub_rounds {a b : F64} {A B : ℝ} (ha : F64.Is a A) (hb : F64.Is b B) :
    ∃ M E : Int, a - b = F64.roundDyadic M E ∧ (M : ℝ) * (2 : ℝ) ^ E = A - B := by
  have h := F64.add_rounds ha (F64.is_neg hb)
  rw [← sub_eq_add_neg] at h
  exact h

/-- The product of two finite `double`s is their exact product, rounded once. -/
theorem F64.mul_rounds {a b : F64} {A B : ℝ} (ha : F64.Is a A) (hb : F64.Is b B) :
    ∃ M E : Int, a * b = F64.roundDyadic M E ∧ (M : ℝ) * (2 : ℝ) ^ E = A * B := by
  obtain ⟨m1, e1, rfl, rfl⟩ := ha
  obtain ⟨m2, e2, rfl, rfl⟩ := hb
  refine ⟨m1 * m2, e1 + e2, rfl, ?_⟩
  rw [zpow_add₀ (by norm_num : (2 : ℝ) ≠ 0)]
  push_cast
  ring

/-- Zero rounds to the zero of the format. -/
theorem F64.roundDyadic_zero (E : Int) : F64.roundDyadic 0 E = 0 := by
  simp [F64.roundDyadic, F64.roundRatio]
  rfl

/-- The zero of the format has value zero. -/
theorem F64.is_zero : F64.Is 0 0 := ⟨0, 0, rfl, by simp⟩

/-- The difference of two finite `double`s is the zero of the format exactly when the
two have the same value. -/
theorem F64.sub_eq_zero_iff {a b : F64} {A B : ℝ} (ha : F64.Is a A) (hb : F64.Is b B)
    (hd : F64.Is (a - b) (A - B)) : a - b = 0 ↔ A - B = 0 := by
  constructor
  · intro h
    rw [h] at hd
    exact F64.Is.unique hd F64.is_zero
  · intro h
    obtain ⟨M, E, hz, hv⟩ := F64.sub_rounds ha hb
    rw [h] at hv
    have h2 : (2 : ℝ) ^ E ≠ 0 := zpow_ne_zero E (by norm_num)
    have hM : M = 0 := by
      rcases mul_eq_zero.mp hv with h3 | h3
      · exact_mod_cast h3
      · exact absurd h3 h2
    rw [hz, hM, F64.roundDyadic_zero]

/-- An integer-valued `double` is a finite `double`. -/
theorem F64.IsInt.is {B : Nat} {z : F64} {v : ℝ} (h : F64.IsInt B z v) : F64.Is z v := by
  obtain ⟨n, hz, rfl, -⟩ := h
  exact hz

/-- A larger bound holds as well. -/
theorem F64.IsInt.mono {B C : Nat} {z : F64} {v : ℝ} (h : F64.IsInt B z v) (hBC : B ≤ C) :
    F64.IsInt C z v := by
  obtain ⟨n, hz, hv, hn⟩ := h
  exact ⟨n, hz, hv, hn.trans hBC⟩

/-- Unary minus keeps integer values and their bound. -/
theorem F64.IsInt.neg {B : Nat} {a : F64} {A : ℝ} (ha : F64.IsInt B a A) :
    F64.IsInt B (-a) (-A) := by
  obtain ⟨n, hz, rfl, hn⟩ := ha
  refine ⟨-n, ?_, by push_cast; rfl, by simpa using hn⟩
  have := F64.is_neg hz
  push_cast
  exact this

/-- The sum of two integer-valued `double`s is exact while the bounds add up to less
than `2 ^ 53`. -/
theorem F64.IsInt.add {B C : Nat} {a b : F64} {A A' : ℝ} (ha : F64.IsInt B a A)
    (hb : F64.IsInt C b A') (h : B + C < 2 ^ 53) : F64.IsInt (B + C) (a + b) (A + A') := by
  obtain ⟨n1, hz1, rfl, hn1⟩ := ha
  obtain ⟨n2, hz2, rfl, hn2⟩ := hb
  obtain ⟨M, E, hz, hv⟩ := F64.add_rounds hz1 hz2
  have hb : (n1 + n2).natAbs ≤ B + C := (Int.natAbs_add_le n1 n2).trans (by omega)
  refine ⟨n1 + n2, ?_, by push_cast; rfl, hb⟩
  rw [hz]
  exact F64.roundDyadic_exact M E (n1 + n2) (by push_cast; exact hv) (by omega)

/-- The difference of two integer-valued `double`s is exact while the bounds add up to
less than `2 ^ 53`. -/
theorem F64.IsInt.sub {B C : Nat} {a b : F64} {A A' : ℝ} (ha : F64.IsInt B a A)
    (hb : F64.IsInt C b A') (h : B + C < 2 ^ 53) : F64.IsInt (B + C) (a - b) (A - A') := by
  have h1 := F64.IsInt.add ha (F64.IsInt.neg hb) h
  rw [← sub_eq_add_neg] at h1
  have h2 : a + -b = a - b := rfl
  rw [h2] at h1
  exact h1

/-- The product of two integer-valued `double`s is exact while the product of the bounds
is less than `2 ^ 53`. -/
theorem F64.IsInt.mul {B C : Nat} {a b : F64} {A A' : ℝ} (ha : F64.IsInt B a A)
    (hb : F64.IsInt C b A') (h : B * C < 2 ^ 53) : F64.IsInt (B * C) (a * b) (A * A') := by
  obtain ⟨n1, hz1, rfl, hn1⟩ := ha
  obtain ⟨n2, hz2, rfl, hn2⟩ := hb
  obtain ⟨M, E, hz, hv⟩ := F64.mul_rounds hz1 hz2
  have hb : (n1 * n2).natAbs ≤ B * C := by
    rw [Int.natAbs_mul]
    exact Nat.mul_le_mul hn1 hn2
  refine ⟨n1 * n2, ?_, by push_cast; rfl, hb⟩
  rw [hz]
  exact F64.roundDyadic_exact M E (n1 * n2) (by push_cast; exact hv) (by omega)

/-- An integer of magnitude below `2 ^ 53` is a `double`. -/
theorem F64.isInt_ofInt (B : Nat) (n : Int) (hn : n.natAbs ≤ B) (hB : B < 2 ^ 53) :
    F64.IsInt B (F64.ofInt n) n := by
  refine ⟨n, ?_, rfl, hn⟩
  have h := F64.roundRatio_exact n 1 Nat.one_pos (by omega)
  simpa [F64.ofInt] using h

/-- A table of integers of magnitude below `2 ^ 53` gives a configuration of doubles that
holds these integers. -/
theorem onGrid_gridPts (B : Nat) (t : Fin 3 → Fin 4 → Int) (ht : ∀ k j, (t k j).natAbs ≤ B)
    (hB : B < 2 ^ 53) : OnGrid B (gridPts t) (gridPtsR t) := fun k =>
  ⟨F64.isInt_ofInt B _ (ht k 0) hB, F64.isInt_ofInt B _ (ht k 1) hB,
    F64.isInt_ofInt B _ (ht k 2) hB, F64.isInt_ofInt B _ (ht k 3) hB⟩

/-- A configuration on the grid is a configuration of finite doubles. -/
theorem OnGrid.represents {B : Nat} {ptsF : Fin 3 → PointRef F64}
    {ptsR : Fin 3 → PointRef ℝ} (h : OnGrid B ptsF ptsR) : Represents ptsF ptsR := fun k =>
  ⟨(h k).1.is, (h k).2.1.is, (h k).2.2.1.is, (h k).2.2.2.is⟩

/-- The configuration of the table `fastTable` holds its integers exactly. -/
theorem represents_fastTable : Represents (gridPts fastTable) (gridPtsR fastTable) := by
  have hbig : F64.Is (F64.ofInt 10000000000000000) ((10000000000000000 : Int) : ℝ) :=
    ⟨5000000000000000, 1, by decide!, by norm_num⟩
  have hone : F64.Is (F64.ofInt 1) ((1 : Int) : ℝ) :=
    ⟨4503599627370496, -52, by decide!, by norm_num⟩
  have hzero : F64.Is (F64.ofInt 0) ((0 : Int) : ℝ) := ⟨0, 0, by decide!, by norm_num⟩
  have hall : ∀ k j, fastTable k j = 10000000000000000 ∨ fastTable k j = 1 ∨
      fastTable k j = 0 := by decide
  have hIs : ∀ k j, F64.Is (F64.ofInt (fastTable k j)) ((fastTable k j : Int) : ℝ) := by
    intro k j
    rcases hall k j with h | h | h <;> rw [h]
    · exact hbig
    · exact hone
    · exact hzero
  exact fun k => ⟨hIs k 0, hIs k 1, hIs k 2, hIs k 3⟩

end Binary64

section Slider

/-- A map that is affine in its argument has its slope as derivative everywhere. -/
theorem hasDerivAt_of_affine {f : ℝ → ℝ} (a x : ℝ) (h : ∀ s, f s = a * s + f 0) :
    HasDerivAt f a x := by
  have h1 : HasDerivAt (fun s : ℝ => a * s + f 0) a x := by
    simpa using ((hasDerivAt_id x).const_mul a).add_const (f 0)
  have h2 : f = fun s : ℝ => a * s + f 0 := funext h
  rw [h2]
  exact h1

/-- Residual written by `update`, in closed form. -/
theorem writtenPhi_eq {K : Type} [Add K] [Sub K] [Mul K] [Neg K]
    (c : CConstraintMobileSlider K)
    (arm : CAssembledRigidModel K) (pts : Fin 3 → PointRef K) :
    writtenPhi c arm pts =
      ((pts 2).x - (pts 1).x) * ((pts 0).y - (pts 1).y) -
        ((pts 2).y - (pts 1).y) * ((pts 0).x - (pts 1).x) := by
  simp [writtenPhi, update, coordsOf]

/-- Jacobian row written by `update` when all six slots are present and distinct. -/
theorem Phi_q_entries {K : Type} [Add K] [Sub K] [Mul K] [Neg K]
    (c : CConstraintMobileSlider K)
    (arm : CAssembledRigidModel K) (sx sy : Fin 3 → Slot)
    (hx : c.jacob.dPhi_dx = fun k => some (sx k))
    (hy : c.jacob.dPhi_dy = fun k => some (sy k))
    (hnd : [sx 0, sy 0, sx 1, sy 1, sx 2, sy 2].Nodup) (pts : Fin 3 → PointRef K) :
    (update (coordsOf pts) c arm).Phi_q_ (sx 0) = (pts 1).y - (pts 2).y ∧
      (update (coordsOf pts) c arm).Phi_q_ (sy 0) = (pts 2).x - (pts 1).x ∧
      (update (coordsOf pts) c arm).Phi_q_ (sx 1) = -(pts 0).y + (pts 2).y ∧
      (update (coordsOf pts) c arm).Phi_q_ (sy 1) = (pts 0).x - (pts 2).x ∧
      (update (coordsOf pts) c arm).Phi_q_ (sx 2) = (pts 0).y - (pts 1).y ∧
      (update (coordsOf pts) c arm).Phi_q_ (sy 2) = -(pts 0).x + (pts 1).x := by
  simp only [List.nodup_cons, List.mem_cons, List.mem_singleton, not_or] at hnd
  obtain ⟨⟨h01, h02, h03, h04, h05⟩, ⟨h12, h13, h14, h15⟩, ⟨h23, h24, h25⟩, ⟨h34, h35⟩,
    ⟨h45, -⟩, -, -⟩ := hnd
  simp [update, coordsOf, writeSlot, hx, hy, Function.update_apply, *]

/-- In exact arithmetic, with all three points of the slider variable (six distinct
Jacobian slots), each entry `dPhi_dx[k]`, `dPhi_dy[k]` given by `update` is the partial
derivative of the residual `Phi` given by `update` with respect to that coordinate, for
every real configuration, and every central difference of `Phi` along that coordinate
(any step `h ≠ 0`) equals the entry exactly. -/
theorem exact_jacobian_is_gradient (c : CConstraintMobileSlider ℝ)
    (arm : CAssembledRigidModel ℝ) (sx sy : Fin 3 → Slot)
    (hx : c.jacob.dPhi_dx = fun k => some (sx k))
    (hy : c.jacob.dPhi_dy = fun k => some (sy k))
    (hnd : [sx 0, sy 0, sx 1, sy 1, sx 2, sy 2].Nodup)
    (pts : Fin 3 → PointRef ℝ) (k : Fin 3) :
    HasDerivAt (fun s => writtenPhi c arm (setX pts k s))
        ((update (coordsOf pts) c arm).Phi_q_ (sx k)) (pts k).x ∧
      HasDerivAt (fun s => writtenPhi c arm (setY pts k s))
        ((update (coordsOf pts) c arm).Phi_q_ (sy k)) (pts k).y ∧
      ∀ h : ℝ, h ≠ 0 →
        (writtenPhi c arm (setX pts k ((pts k).x + h)) -
            writtenPhi c arm (setX pts k ((pts k).x - h))) / (2 * h) =
          (update (coordsOf pts) c arm).Phi_q_ (sx k) ∧
        (writtenPhi c arm (setY pts k ((pts k).y + h)) -
            writtenPhi c arm (setY pts k ((pts k).y - h))) / (2 * h) =
          (update (coordsOf pts) c arm).Phi_q_ (sy k) := by
  obtain ⟨e0, e1, e2, e3, e4, e5⟩ := Phi_q_entries c arm sx sy hx hy hnd pts
  fin_cases k <;>
    simp only [Fin.zero_eta, Fin.mk_one, Fin.reduceFinMk, e0, e1, e2, e3, e4, e5,
      writtenPhi_eq] <;>
    refine ⟨hasDerivAt_of_affine _ _ fun s => ?_, hasDerivAt_of_affine _ _ fun s => ?_,
      fun h hh => ⟨?_, ?_⟩⟩ <;>
    simp [setX, setY, PointRef.withX, PointRef.withY] <;>
    first
      | ring1
      | (field_simp; ring1)

/-- In the program's doubles, with all three points variable and finite coordinates, each
Jacobian entry written by `update` is the entry of exact arithmetic rounded once to the
nearest `double`. -/
theorem double_Phi_q_entry_rounds (cR : CConstraintMobileSlider ℝ)
    (armR : CAssembledRigidModel ℝ) (cF : CConstraintMobileSlider F64)
    (armF : CAssembledRigidModel F64) (sx sy : Fin 3 → Slot)
    (hx : cR.jacob.dPhi_dx = fun k => some (sx k))
    (hy : cR.jacob.dPhi_dy = fun k => some (sy k))
    (hxF : cF.jacob.dPhi_dx = fun k => some (sx k))
    (hyF : cF.jacob.dPhi_dy = fun k => some (sy k))
    (hnd : [sx 0, sy 0, sx 1, sy 1, sx 2, sy 2].Nodup)
    (ptsF : Fin 3 → PointRef F64) (ptsR : Fin 3 → PointRef ℝ) (hrep : Represents ptsF ptsR)
    (k : Fin 3) :
    (∃ M E : Int, (update (coordsOf ptsF) cF armF).Phi_q_ (sx k) = F64.roundDyadic M E ∧
        (M : ℝ) * (2 : ℝ) ^ E = (update (coordsOf ptsR) cR armR).Phi_q_ (sx k)) ∧
      ∃ M E : Int, (update (coordsOf ptsF) cF armF).Phi_q_ (sy k) = F64.roundDyadic M E ∧
        (M : ℝ) * (2 : ℝ) ^ E = (update (coordsOf ptsR) cR armR).Phi_q_ (sy k) := by
  obtain ⟨e0, e1, e2, e3, e4, e5⟩ := Phi_q_entries cR armR sx sy hx hy hnd ptsR
  obtain ⟨f0, f1, f2, f3, f4, f5⟩ := Phi_q_entries cF armF sx sy hxF hyF hnd ptsF
  obtain ⟨x0, y0, -, -⟩ := hrep 0
  obtain ⟨x1, y1, -, -⟩ := hrep 1
  obtain ⟨x2, y2, -, -⟩ := hrep 2
  fin_cases k <;>
    simp only [Fin.zero_eta, Fin.mk_one, Fin.reduceFinMk, e0, e1, e2, e3, e4, e5,
      f0, f1, f2, f3, f4, f5]
  · exact ⟨F64.sub_rounds y1 y2, F64.sub_rounds x2 x1⟩
  · exact ⟨F64.add_rounds (F64.is_neg y0) y2, F64.sub_rounds x0 x2⟩
  · exact ⟨F64.sub_rounds y0 y1, F64.add_rounds (F64.is_neg x0) x1⟩

/-- Three points of the real plane are collinear exactly when the cross product of the
two difference vectors from one of them vanishes. -/
theorem collinear_iff_cross2_eq_zero (p a b : ℝ × ℝ) :
    Collinear ℝ ({p, a, b} : Set (ℝ × ℝ)) ↔ cross2 (b - a) (p - a) = 0 := by
  have ha : a ∈ ({p, a, b} : Set (ℝ × ℝ)) := by simp
  rw [collinear_iff_of_mem ha]
  constructor
  · rintro ⟨v, hv⟩
    obtain ⟨r, hr⟩ := hv p (by simp)
    obtain ⟨t, ht⟩ := hv b (by simp)
    subst hr
    subst ht
    simp only [cross2, vadd_eq_add, add_sub_cancel_right, Prod.smul_fst, Prod.smul_snd,
      smul_eq_mul]
    ring
  · intro h
    simp only [cross2, Prod.fst_sub, Prod.snd_sub] at h
    by_cases hu : b = a
    · refine ⟨p - a, ?_⟩
      intro x hx
      simp only [Set.mem_insert_iff, Set.mem_singleton_iff] at hx
      rcases hx with rfl | rfl | rfl
      · exact ⟨1, by simp⟩
      · exact ⟨0, by simp⟩
      · exact ⟨0, by simp [hu]⟩
    · refine ⟨b - a, ?_⟩
      intro x hx
      simp only [Set.mem_insert_iff, Set.mem_singleton_iff] at hx
      rcases hx with rfl | rfl | rfl
      · by_cases h1 : b.1 - a.1 = 0
        · have h2 : b.2 - a.2 ≠ 0 := by
            intro h2
            apply hu
            ext
            · linarith
            · linarith
          refine ⟨(x.2 - a.2) / (b.2 - a.2), ?_⟩
          have hx1 : x.1 - a.1 = 0 := by
            have : (b.2 - a.2) * (x.1 - a.1) = 0 := by rw [h1] at h; linarith
            rcases mul_eq_zero.mp this with h3 | h3
            · exact absurd h3 h2
            · exact h3
          ext
          · simp only [vadd_eq_add, Prod.fst_add, Prod.smul_fst, Prod.fst_sub, smul_eq_mul,
              h1, mul_zero]
            linarith
          · simp only [vadd_eq_add, Prod.snd_add, Prod.smul_snd, Prod.snd_sub, smul_eq_mul]
            field_simp
        · refine ⟨(x.1 - a.1) / (b.1 - a.1), ?_⟩
          ext
          · simp only [vadd_eq_add, Prod.fst_add, Prod.smul_fst, Prod.fst_sub, smul_eq_mul]
            field_simp
          · simp only [vadd_eq_add, Prod.snd_add, Prod.smul_snd, Prod.snd_sub, smul_eq_mul]
            field_simp
            linarith
      · exact ⟨0, by simp⟩
      · exact ⟨1, by simp⟩

/-- In exact arithmetic, for all real positions, the residual given by `update` is the
signed cross product `(pr1 - pr0) × (p - pr0)`; it vanishes if and only if `p`, `pr0`,
`pr1` are collinear, and when `pr0 ≠ pr1` if and only if `p` lies on the line through
them. -/
theorem exact_residual_cross_collinear (c : CConstraintMobileSlider ℝ)
    (arm : CAssembledRigidModel ℝ) (pts : Fin 3 → PointRef ℝ) :
    writtenPhi c arm pts =
        cross2 ((pts 2).pos - (pts 1).pos) ((pts 0).pos - (pts 1).pos) ∧
      (writtenPhi c arm pts = 0 ↔
        Collinear ℝ ({(pts 0).pos, (pts 1).pos, (pts 2).pos} : Set (ℝ × ℝ))) ∧
      ((pts 1).pos ≠ (pts 2).pos →
        (writtenPhi c arm pts = 0 ↔
          (pts 0).pos ∈ affineSpan ℝ ({(pts 1).pos, (pts 2).pos} : Set (ℝ × ℝ)))) := by
  have hc : writtenPhi c arm pts =
      cross2 ((pts 2).pos - (pts 1).pos) ((pts 0).pos - (pts 1).pos) := by
    simp [writtenPhi_eq, cross2, PointRef.pos]
  have hcol := collinear_iff_cross2_eq_zero (pts 0).pos (pts 1).pos (pts 2).pos
  refine ⟨hc, ?_, fun hne => ?_⟩
  · rw [hc, hcol]
  · rw [hc, ← hcol]
    constructor
    · intro h
      exact h.mem_affineSpan_of_mem_of_ne (by simp) (by simp) (by simp) hne
    · intro h
      exact collinear_insert_of_mem_affineSpan_pair h

/-- On integer coordinates of magnitude at most `2 ^ 24`, the residual that `update`
writes in doubles is the residual of exact arithmetic, and it is the zero of the format
exactly when the exact residual is zero. -/
theorem grid_writtenPhi_exact (cR : CConstraintMobileSlider ℝ) (armR : CAssembledRigidModel ℝ)
    (cF : CConstraintMobileSlider F64) (armF : CAssembledRigidModel F64)
    (ptsF : Fin 3 → PointRef F64) (ptsR : Fin 3 → PointRef ℝ)
    (hg : OnGrid (2 ^ 24) ptsF ptsR) :
    F64.Is (writtenPhi cF armF ptsF) (writtenPhi cR armR ptsR) ∧
      (writtenPhi cF armF ptsF = 0 ↔ writtenPhi cR armR ptsR = 0) := by
  obtain ⟨x0, y0, -, -⟩ := hg 0
  obtain ⟨x1, y1, -, -⟩ := hg 1
  obtain ⟨x2, y2, -, -⟩ := hg 2
  have p1 := ((x2.sub x1 (by norm_num)).mul (y0.sub y1 (by norm_num)) (by norm_num))
  have p2 := ((y2.sub y1 (by norm_num)).mul (x0.sub x1 (by norm_num)) (by norm_num))
  have hd := (p1.sub p2 (by norm_num)).is
  rw [writtenPhi_eq, writtenPhi_eq]
  exact ⟨hd, F64.sub_eq_zero_iff p1.is p2.is hd⟩

/-- Velocity residual written by `update`, in closed form. -/
theorem writtenDotPhi_eq {K : Type} [Add K] [Sub K] [Mul K] [Neg K]
    (c : CConstraintMobileSlider K)
    (arm : CAssembledRigidModel K) (pts : Fin 3 → PointRef K) :
    writtenDotPhi c arm pts =
      ((pts 2).dotx - (pts 1).dotx) * ((pts 0).y - (pts 1).y) +
          ((pts 2).x - (pts 1).x) * ((pts 0).doty - (pts 1).doty) -
          ((pts 2).doty - (pts 1).doty) * ((pts 0).x - (pts 1).x) -
        ((pts 2).y - (pts 1).y) * ((pts 0).dotx - (pts 1).dotx) := by
  simp [writtenDotPhi, update, coordsOf]

/-- Along the motion of the points, the written residual has the written velocity
residual as its derivative, at every time. -/
theorem hasDerivAt_writtenPhi_advance (c : CConstraintMobileSlider ℝ)
    (arm : CAssembledRigidModel ℝ) (pts : Fin 3 → PointRef ℝ) (t : ℝ) :
    HasDerivAt (fun τ => writtenPhi c arm (advance pts τ))
      (writtenDotPhi c arm (advance pts t)) t := by
  have hx : ∀ k, HasDerivAt (fun τ => (pts k).x + τ * (pts k).dotx) (pts k).dotx t := by
    intro k
    simpa using ((hasDerivAt_id t).mul_const (pts k).dotx).const_add (pts k).x
  have hy : ∀ k, HasDerivAt (fun τ => (pts k).y + τ * (pts k).doty) (pts k).doty t := by
    intro k
    simpa using ((hasDerivAt_id t).mul_const (pts k).doty).const_add (pts k).y
  have h := (((hx 2).sub (hx 1)).mul ((hy 0).sub (hy 1))).sub
    (((hy 2).sub (hy 1)).mul ((hx 0).sub (hx 1)))
  simp only [writtenPhi_eq, writtenDotPhi_eq, advance]
  refine h.congr_deriv ?_
  ring

/-- The product `Phi_q * dotq` formed from the written Jacobian row, in closed form. -/
theorem rowTimesVel_update_eq {K : Type} [Add K] [Sub K] [Mul K] [Neg K]
    (c : CConstraintMobileSlider K)
    (arm : CAssembledRigidModel K) (sx sy : Fin 3 → Slot)
    (hx : c.jacob.dPhi_dx = fun k => some (sx k))
    (hy : c.jacob.dPhi_dy = fun k => some (sy k))
    (hnd : [sx 0, sy 0, sx 1, sy 1, sx 2, sy 2].Nodup) (pts : Fin 3 → PointRef K) :
    rowTimesVel (update (coordsOf pts) c arm).Phi_q_ sx sy pts =
      ((pts 1).y - (pts 2).y) * (pts 0).dotx + ((pts 2).x - (pts 1).x) * (pts 0).doty +
        ((-(pts 0).y + (pts 2).y) * (pts 1).dotx + ((pts 0).x - (pts 2).x) * (pts 1).doty) +
        (((pts 0).y - (pts 1).y) * (pts 2).dotx + (-(pts 0).x + (pts 1).x) * (pts 2).doty) := by
  obtain ⟨e0, e1, e2, e3, e4, e5⟩ := Phi_q_entries c arm sx sy hx hy hnd pts
  simp only [rowTimesVel, e0, e1, e2, e3, e4, e5]

/-- In exact arithmetic, with all three points variable, the velocity residual given by
`update` equals the Jacobian row given by `update` applied to the point velocities, and
it is the time derivative of `Phi` along the motion. -/
theorem exact_dotPhi_eq_row_times_vel (c : CConstraintMobileSlider ℝ)
    (arm : CAssembledRigidModel ℝ) (sx sy : Fin 3 → Slot)
    (hx : c.jacob.dPhi_dx = fun k => some (sx k))
    (hy : c.jacob.dPhi_dy = fun k => some (sy k))
    (hnd : [sx 0, sy 0, sx 1, sy 1, sx 2, sy 2].Nodup)
    (pts : Fin 3 → PointRef ℝ) :
    writtenDotPhi c arm pts =
        rowTimesVel (update (coordsOf pts) c arm).Phi_q_ sx sy pts ∧
      ∀ t : ℝ, HasDerivAt (fun τ => writtenPhi c arm (advance pts τ))
        (rowTimesVel (update (coordsOf (advance pts t)) c arm).Phi_q_ sx sy
          (advance pts t)) t := by
  have key : ∀ q : Fin 3 → PointRef ℝ,
      writtenDotPhi c arm q = rowTimesVel (update (coordsOf q) c arm).Phi_q_ sx sy q := by
    intro q
    obtain ⟨e0, e1, e2, e3, e4, e5⟩ := Phi_q_entries c arm sx sy hx hy hnd q
    simp only [rowTimesVel, e0, e1, e2, e3, e4, e5, writtenDotPhi_eq]
    ring
  refine ⟨key pts, fun t => ?_⟩
  rw [← key]
  exact hasDerivAt_writtenPhi_advance c arm pts t

/-- On integer coordinates and velocities of magnitude at most `2 ^ 24`, the velocity
residual that `update` writes in doubles is the velocity residual of exact arithmetic,
and it is the zero of the format exactly when the exact velocity residual is zero. -/
theorem grid_writtenDotPhi_exact (cR : CConstraintMobileSlider ℝ)
    (armR : CAssembledRigidModel ℝ) (cF : CConstraintMobileSlider F64)
    (armF : CAssembledRigidModel F64) (ptsF : Fin 3 → PointRef F64)
    (ptsR : Fin 3 → PointRef ℝ) (hg : OnGrid (2 ^ 24) ptsF ptsR) :
    F64.Is (writtenDotPhi cF armF ptsF) (writtenDotPhi cR armR ptsR) ∧
      (writtenDotPhi cF armF ptsF = 0 ↔ writtenDotPhi cR armR ptsR = 0) := by
  obtain ⟨x0, y0, u0, v0⟩ := hg 0
  obtain ⟨x1, y1, u1, v1⟩ := hg 1
  obtain ⟨x2, y2, u2, v2⟩ := hg 2
  have p1 := (u2.sub u1 (by norm_num)).mul (y0.sub y1 (by norm_num)) (by norm_num)
  have p2 := (x2.sub x1 (by norm_num)).mul (v0.sub v1 (by norm_num)) (by norm_num)
  have p3 := (v2.sub v1 (by norm_num)).mul (x0.sub x1 (by norm_num)) (by norm_num)
  have p4 := (y2.sub y1 (by norm_num)).mul (u0.sub u1 (by norm_num)) (by norm_num)
  have hs := (p1.add p2 (by norm_num)).sub p3 (by norm_num)
  have hd := (hs.sub p4 (by norm_num)).is
  rw [writtenDotPhi_eq, writtenDotPhi_eq]
  exact ⟨hd, F64.sub_eq_zero_iff hs.is p4.is hd⟩

/-- On integer coordinates and velocities of magnitude at most `2 ^ 24`, the product of
the Jacobian row written in doubles with the velocities, formed in doubles, is the
product of exact arithmetic. -/
theorem grid_rowTimesVel_exact (cR : CConstraintMobileSlider ℝ)
    (armR : CAssembledRigidModel ℝ) (cF : CConstraintMobileSlider F64)
    (armF : CAssembledRigidModel F64) (sx sy : Fin 3 → Slot)
    (hx : cR.jacob.dPhi_dx = fun k => some (sx k))
    (hy : cR.jacob.dPhi_dy = fun k => some (sy k))
    (hxF : cF.jacob.dPhi_dx = fun k => some (sx k))
    (hyF : cF.jacob.dPhi_dy = fun k => some (sy k))
    (hnd : [sx 0, sy 0, sx 1, sy 1, sx 2, sy 2].Nodup)
    (ptsF : Fin 3 → PointRef F64) (ptsR : Fin 3 → PointRef ℝ)
    (hg : OnGrid (2 ^ 24) ptsF ptsR) :
    F64.Is (rowTimesVel (update (coordsOf ptsF) cF armF).Phi_q_ sx sy ptsF)
      (rowTimesVel (update (coordsOf ptsR) cR armR).Phi_q_ sx sy ptsR) := by
  obtain ⟨x0, y0, u0, v0⟩ := hg 0
  obtain ⟨x1, y1, u1, v1⟩ := hg 1
  obtain ⟨x2, y2, u2, v2⟩ := hg 2
  have p0 := (y1.sub y2 (by norm_num)).mul u0 (by norm_num)
  have p1 := (x2.sub x1 (by norm_num)).mul v0 (by norm_num)
  have p2 := (y0.neg.add y2 (by norm_num)).mul u1 (by norm_num)
  have p3 := (x0.sub x2 (by norm_num)).mul v1 (by norm_num)
  have p4 := (y0.sub y1 (by norm_num)).mul u2 (by norm_num)
  have p5 := (x0.neg.add x1 (by norm_num)).mul v2 (by norm_num)
  rw [rowTimesVel_update_eq cF armF sx sy hxF hyF hnd,
    rowTimesVel_update_eq cR armR sx sy hx hy hnd]
  exact (((p0.add p1 (by norm_num)).add (p2.add p3 (by norm_num)) (by norm_num)).add
    (p4.add p5 (by norm_num)) (by norm_num)).is

/-- Row of the Jacobian time derivative written by `update` when all six slots are
present and distinct. -/
theorem dotPhi_q_entries {K : Type} [Add K] [Sub K] [Mul K] [Neg K]
    (c : CConstraintMobileSlider K)
    (arm : CAssembledRigidModel K) (ux uy : Fin 3 → Slot)
    (hux : c.jacob.dot_dPhi_dx = fun k => some (ux k))
    (huy : c.jacob.dot_dPhi_dy = fun k => some (uy k))
    (hnd : [ux 0, uy 0, ux 1, uy 1, ux 2, uy 2].Nodup) (pts : Fin 3 → PointRef K) :
    (update (coordsOf pts) c arm).dotPhi_q_ (ux 0) = (pts 1).doty - (pts 2).doty ∧
      (update (coordsOf pts) c arm).dotPhi_q_ (uy 0) = (pts 2).dotx - (pts 1).dotx ∧
      (update (coordsOf pts) c arm).dotPhi_q_ (ux 1) = -(pts 0).doty + (pts 2).doty ∧
      (update (coordsOf pts) c arm).dotPhi_q_ (uy 1) = (pts 0).dotx - (pts 2).dotx ∧
      (update (coordsOf pts) c arm).dotPhi_q_ (ux 2) = (pts 0).doty - (pts 1).doty ∧
      (update (coordsOf pts) c arm).dotPhi_q_ (uy 2) = -(pts 0).dotx + (pts 1).dotx := by
  simp only [List.nodup_cons, List.mem_cons, List.mem_singleton, not_or] at hnd
  obtain ⟨⟨h01, h02, h03, h04, h05⟩, ⟨h12, h13, h14, h15⟩, ⟨h23, h24, h25⟩, ⟨h34, h35⟩,
    ⟨h45, -⟩, -, -⟩ := hnd
  simp [update, coordsOf, writeSlot, hux, huy, Function.update_apply, *]

/-- Row of the bilinear term written by `update` when all six slots are present and
distinct. -/
theorem dPhiqdq_dq_entries {K : Type} [Add K] [Sub K] [Mul K] [Neg K]
    (c : CConstraintMobileSlider K)
    (arm : CAssembledRigidModel K) (tx ty : Fin 3 → Slot)
    (htx : c.jacob.dPhiqdq_dx = fun k => some (tx k))
    (hty : c.jacob.dPhiqdq_dy = fun k => some (ty k))
    (hnd : [tx 0, ty 0, tx 1, ty 1, tx 2, ty 2].Nodup) (pts : Fin 3 → PointRef K) :
    (update (coordsOf pts) c arm).dPhiqdq_dq_ (tx 0) = (pts 1).doty - (pts 2).doty ∧
      (update (coordsOf pts) c arm).dPhiqdq_dq_ (ty 0) = (pts 2).dotx - (pts 1).dotx ∧
      (update (coordsOf pts) c arm).dPhiqdq_dq_ (tx 1) = (pts 2).doty - (pts 0).doty ∧
      (update (coordsOf pts) c arm).dPhiqdq_dq_ (ty 1) = (pts 0).dotx - (pts 2).dotx ∧
      (update (coordsOf pts) c arm).dPhiqdq_dq_ (tx 2) = (pts 0).doty - (pts 1).doty ∧
      (update (coordsOf pts) c arm).dPhiqdq_dq_ (ty 2) = (pts 1).dotx - (pts 0).dotx := by
  simp only [List.nodup_cons, List.mem_cons, List.mem_singleton, not_or] at hnd
  obtain ⟨⟨h01, h02, h03, h04, h05⟩, ⟨h12, h13, h14, h15⟩, ⟨h23, h24, h25⟩, ⟨h34, h35⟩,
    ⟨h45, -⟩, -, -⟩ := hnd
  simp [update, coordsOf, writeSlot, htx, hty, Function.update_apply, *]

/-- In exact arithmetic, with all three points variable, each entry `dPhiqdq_dx[k]`,
`dPhiqdq_dy[k]` given by `update` is the partial derivative, with respect to that position
coordinate and with the velocities held fixed, of the product `Phi_q * dotq` formed from
the Jacobian row given by the same `update`. -/
theorem exact_bilinear_is_gradient (c : CConstraintMobileSlider ℝ)
    (arm : CAssembledRigidModel ℝ) (sx sy tx ty : Fin 3 → Slot)
    (hx : c.jacob.dPhi_dx = fun k => some (sx k))
    (hy : c.jacob.dPhi_dy = fun k => some (sy k))
    (hnd : [sx 0, sy 0, sx 1, sy 1, sx 2, sy 2].Nodup)
    (htx : c.jacob.dPhiqdq_dx = fun k => some (tx k))
    (hty : c.jacob.dPhiqdq_dy = fun k => some (ty k))
    (htnd : [tx 0, ty 0, tx 1, ty 1, tx 2, ty 2].Nodup)
    (pts : Fin 3 → PointRef ℝ) (k : Fin 3) :
    HasDerivAt
        (fun s => rowTimesVel (update (coordsOf (setX pts k s)) c arm).Phi_q_ sx sy
          (setX pts k s))
        ((update (coordsOf pts) c arm).dPhiqdq_dq_ (tx k)) (pts k).x ∧
      HasDerivAt
        (fun s => rowTimesVel (update (coordsOf (setY pts k s)) c arm).Phi_q_ sx sy
          (setY pts k s))
        ((update (coordsOf pts) c arm).dPhiqdq_dq_ (ty k)) (pts k).y := by
  obtain ⟨e0, e1, e2, e3, e4, e5⟩ := dPhiqdq_dq_entries c arm tx ty htx hty htnd pts
  fin_cases k <;>
    simp only [Fin.zero_eta, Fin.mk_one, Fin.reduceFinMk, e0, e1, e2, e3, e4, e5,
      rowTimesVel_update_eq c arm sx sy hx hy hnd] <;>
    refine ⟨hasDerivAt_of_affine _ _ fun s => ?_, hasDerivAt_of_affine _ _ fun s => ?_⟩ <;>
    simp [setX, setY, PointRef.withX, PointRef.withY] <;>
    ring1

/-- In the program's doubles, with all three points variable and finite velocities, each
entry of the bilinear term written by `update` is the entry of exact arithmetic rounded
once to the nearest `double`. -/
theorem double_dPhiqdq_entry_rounds (cR : CConstraintMobileSlider ℝ)
    (armR : CAssembledRigidModel ℝ) (cF : CConstraintMobileSlider F64)
    (armF : CAssembledRigidModel F64) (tx ty : Fin 3 → Slot)
    (htx : cR.jacob.dPhiqdq_dx = fun k => some (tx k))
    (hty : cR.jacob.dPhiqdq_dy = fun k => some (ty k))
    (htxF : cF.jacob.dPhiqdq_dx = fun k => some (tx k))
    (htyF : cF.jacob.dPhiqdq_dy = fun k => some (ty k))
    (htnd : [tx 0, ty 0, tx 1, ty 1, tx 2, ty 2].Nodup)
    (ptsF : Fin 3 → PointRef F64) (ptsR : Fin 3 → PointRef ℝ) (hrep : Represents ptsF ptsR)
    (k : Fin 3) :
    (∃ M E : Int, (update (coordsOf ptsF) cF armF).dPhiqdq_dq_ (tx k) = F64.roundDyadic M E ∧
        (M : ℝ) * (2 : ℝ) ^ E = (update (coordsOf ptsR) cR armR).dPhiqdq_dq_ (tx k)) ∧
      ∃ M E : Int, (update (coordsOf ptsF) cF armF).dPhiqdq_dq_ (ty k) = F64.roundDyadic M E ∧
        (M : ℝ) * (2 : ℝ) ^ E = (update (coordsOf ptsR) cR armR).dPhiqdq_dq_ (ty k) := by
  obtain ⟨e0, e1, e2, e3, e4, e5⟩ := dPhiqdq_dq_entries cR armR tx ty htx hty htnd ptsR
  obtain ⟨f0, f1, f2, f3, f4, f5⟩ := dPhiqdq_dq_entries cF armF tx ty htxF htyF htnd ptsF
  obtain ⟨-, -, u0, v0⟩ := hrep 0
  obtain ⟨-, -, u1, v1⟩ := hrep 1
  obtain ⟨-, -, u2, v2⟩ := hrep 2
  fin_cases k <;>
    simp only [Fin.zero_eta, Fin.mk_one, Fin.reduceFinMk, e0, e1, e2, e3, e4, e5,
      f0, f1, f2, f3, f4, f5]
  · exact ⟨F64.sub_rounds v1 v2, F64.sub_rounds u2 u1⟩
  · exact ⟨F64.sub_rounds v2 v0, F64.sub_rounds u0 u2⟩
  · exact ⟨F64.sub_rounds v0 v1, F64.sub_rounds u1 u0⟩

/-- C4, amended. With all three points variable: in exact real arithmetic, for all
positions and velocities, each entry `dPhiqdq_dx[k]`, `dPhiqdq_dy[k]` given by `update` is
the partial derivative, with respect to that position coordinate and with the velocities
held fixed, of the product `Phi_q * dotq` formed from the Jacobian row given by the same
`update`; in the program's doubles, for finite coordinates and velocities, each written
entry is that exact entry rounded once to the nearest `double`. -/
theorem slider_bilinear_is_gradient (cR : CConstraintMobileSlider ℝ)
    (armR : CAssembledRigidModel ℝ) (cF : CConstraintMobileSlider F64)
    (armF : CAssembledRigidModel F64) (sx sy tx ty : Fin 3 → Slot)
    (hx : cR.jacob.dPhi_dx = fun k => some (sx k))
    (hy : cR.jacob.dPhi_dy = fun k => some (sy k))
    (hnd : [sx 0, sy 0, sx 1, sy 1, sx 2, sy 2].Nodup)
    (htx : cR.jacob.dPhiqdq_dx = fun k => some (tx k))
    (hty : cR.jacob.dPhiqdq_dy = fun k => some (ty k))
    (htxF : cF.jacob.dPhiqdq_dx = fun k => some (tx k))
    (htyF : cF.jacob.dPhiqdq_dy = fun k => some (ty k))
    (htnd : [tx 0, ty 0, tx 1, ty 1, tx 2, ty 2].Nodup) (k : Fin 3) :
    (∀ pts : Fin 3 → PointRef ℝ,
        HasDerivAt
            (fun s => rowTimesVel (update (coordsOf (setX pts k s)) cR armR).Phi_q_ sx sy
              (setX pts k s))
            ((update (coordsOf pts) cR armR).dPhiqdq_dq_ (tx k)) (pts k).x ∧
          HasDerivAt
            (fun s => rowTimesVel (update (coordsOf (setY pts k s)) cR armR).Phi_q_ sx sy
              (setY pts k s))
            ((update (coordsOf pts) cR armR).dPhiqdq_dq_ (ty k)) (pts k).y) ∧
      ∀ (ptsF : Fin 3 → PointRef F64) (ptsR : Fin 3 → PointRef ℝ), Represents ptsF ptsR →
        (∃ M E : Int,
            (update (coordsOf ptsF) cF armF).dPhiqdq_dq_ (tx k) = F64.roundDyadic M E ∧
            (M : ℝ) * (2 : ℝ) ^ E = (update (coordsOf ptsR) cR armR).dPhiqdq_dq_ (tx k)) ∧
          ∃ M E : Int,
            (update (coordsOf ptsF) cF armF).dPhiqdq_dq_ (ty k) = F64.roundDyadic M E ∧
            (M : ℝ) * (2 : ℝ) ^ E = (update (coordsOf ptsR) cR armR).dPhiqdq_dq_ (ty k) :=
  ⟨fun pts => exact_bilinear_is_gradient cR armR sx sy tx ty hx hy hnd htx hty htnd pts k,
    fun ptsF ptsR hrep =>
      double_dPhiqdq_entry_rounds cR armR cF armF tx ty htx hty htxF htyF htnd ptsF ptsR
        hrep k⟩

/-- Witness for the amended C4 on the sample sliders, for the sliding point. -/
theorem slider_bilinear_is_gradient_witness :
    [sampleSx 0, sampleSy 0, sampleSx 1, sampleSy 1, sampleSx 2, sampleSy 2].Nodup ∧
      Represents (gridPts fastTable) (gridPtsR fastTable) ∧
      HasDerivAt
        (fun s : ℝ =>
          rowTimesVel (update (coordsOf (setX samplePts 0 s)) sampleSlider sampleModel).Phi_q_
            sampleSx sampleSy (setX samplePts 0 s))
        ((update (coordsOf samplePts) sampleSlider sampleModel).dPhiqdq_dq_ (sampleSx 0))
        (samplePts 0 : PointRef ℝ).x ∧
      ∃ M E : Int,
        (update (coordsOf (gridPts fastTable)) sampleSliderF sampleModelF).dPhiqdq_dq_
            (sampleSx 0) = F64.roundDyadic M E ∧
          (M : ℝ) * (2 : ℝ) ^ E =
            (update (coordsOf (gridPtsR fastTable)) sampleSlider sampleModel).dPhiqdq_dq_
              (sampleSx 0) :=
  have h := slider_bilinear_is_gradient (sampleSlider : CConstraintMobileSlider ℝ)
    sampleModel sampleSliderF sampleModelF sampleSx sampleSy sampleSx sampleSy rfl rfl
    (by decide) rfl rfl rfl rfl (by decide) 0
  ⟨by decide, represents_fastTable, (h.1 samplePts).1,
    (h.2 (gridPts fastTable) (gridPtsR fastTable) represents_fastTable).1⟩

/-- C4, as stated, fails on the program's doubles. At `p = (1, 1)`, `pr[0] = (0, 0)`
moving at `(0, 0.3)`, `pr[1] = (3, 0)`, the entry `dPhiqdq_dx[0]` written by `update` is
`0.3`, while the central difference of the product `Phi_q * dotq` along the `x` of `p`
with step `0.5` (twice the step is `1`) is `0.30000000000000004`: the product is
`-0.44999999999999996` at `x = 1.5` and `-0.75` at `x = 0.5`. And with `pr[0]` moving at
`(0, 10 ^ 16)` and `pr[1]` at `(0, 1)`, integers that doubles hold exactly, the written
entry is `10 ^ 16`, while the partial derivative of the product is `10 ^ 16 - 1`. -/
theorem slider_bilinear_entry_inexact_in_double :
    (update (coordsOf benchPts) sampleSliderF sampleModelF).dPhiqdq_dq_ (sampleSx 0) =
        F64.fin 5404319552844595 (-54) ∧
      F64.ofDecimal 5 1 + F64.ofDecimal 5 1 = F64.ofInt 1 ∧
      rowTimesVel (update (coordsOf (setX benchPts 0 ((benchPts 0).x + F64.ofDecimal 5 1)))
            sampleSliderF sampleModelF).Phi_q_ sampleSx sampleSy
            (setX benchPts 0 ((benchPts 0).x + F64.ofDecimal 5 1)) -
          rowTimesVel (update (coordsOf (setX benchPts 0 ((benchPts 0).x - F64.ofDecimal 5 1)))
            sampleSliderF sampleModelF).Phi_q_ sampleSx sampleSy
            (setX benchPts 0 ((benchPts 0).x - F64.ofDecimal 5 1)) =
        F64.fin 5404319552844596 (-54) ∧
      Represents (gridPts fastTable) (gridPtsR fastTable) ∧
      (update (coordsOf (gridPts fastTable)) sampleSliderF sampleModelF).dPhiqdq_dq_
          (sampleSx 0) = F64.ofInt 10000000000000000 ∧
      HasDerivAt
        (fun s : ℝ =>
          rowTimesVel (update (coordsOf (setX (gridPtsR fastTable) 0 s)) sampleSlider
            sampleModel).Phi_q_ sampleSx sampleSy (setX (gridPtsR fastTable) 0 s))
        9999999999999999 (gridPtsR fastTable 0).x := by
  refine ⟨by decide!, by decide!, by decide!, represents_fastTable, by decide!, ?_⟩
  have h := (exact_bilinear_is_gradient (sampleSlider : CConstraintMobileSlider ℝ)
    sampleModel sampleSx sampleSy sampleSx sampleSy rfl rfl (by decide) rfl rfl (by decide)
    (gridPtsR fastTable) 0).1
  have hv : (update (coordsOf (gridPtsR fastTable)) (sampleSlider : CConstraintMobileSlider ℝ)
      sampleModel).dPhiqdq_dq_ (sampleSx 0) = 9999999999999999 := by
    rw [(dPhiqdq_dq_entries (sampleSlider : CConstraintMobileSlider ℝ) sampleModel sampleSx
      sampleSy rfl rfl (by decide) (gridPtsR fastTable)).1]
    simp [gridPtsR, fastTable]
    norm_num
  rw [hv] at h
  exact h

/-- A quantity that is linear in the six position coordinates, with coefficients `α` (for
the `x`) and `β` (for the `y`), has the coefficients as partial derivatives; its chain-rule
time derivative is the same linear form of the velocities. -/
theorem isSumOfPartialsTimesVel_of_linear (α β : Fin 3 → ℝ)
    (E : (Fin 3 → PointRef ℝ) → ℝ)
    (hE : ∀ q, E q = α 0 * (q 0).x + β 0 * (q 0).y + (α 1 * (q 1).x + β 1 * (q 1).y) +
      (α 2 * (q 2).x + β 2 * (q 2).y))
    (pts : Fin 3 → PointRef ℝ) (d : ℝ)
    (hd : d = α 0 * (pts 0).dotx + β 0 * (pts 0).doty +
      (α 1 * (pts 1).dotx + β 1 * (pts 1).doty) +
      (α 2 * (pts 2).dotx + β 2 * (pts 2).doty)) :
    IsSumOfPartialsTimesVel E pts d := by
  refine ⟨α, β, fun m => hasDerivAt_of_affine _ _ fun s => ?_,
    fun m => hasDerivAt_of_affine _ _ fun s => ?_, hd⟩
  · rw [hE, hE]
    fin_cases m <;> simp [setX, PointRef.withX] <;> ring1
  · rw [hE, hE]
    fin_cases m <;> simp [setY, PointRef.withY] <;> ring1

/-- In exact arithmetic, with all three points variable, each entry `dot_dPhi_dx[k]`,
`dot_dPhi_dy[k]` given by `update` is the time derivative of the Jacobian entry
`dPhi_dx[k]`, `dPhi_dy[k]` along the motion: it is the sum over the six coordinates of the
partial derivative of the Jacobian entry times the velocity of the coordinate, and the
derivative in time of the entry when the points move with their velocities. -/
theorem exact_dot_jacobian_is_time_derivative (c : CConstraintMobileSlider ℝ)
    (arm : CAssembledRigidModel ℝ) (sx sy ux uy : Fin 3 → Slot)
    (hx : c.jacob.dPhi_dx = fun k => some (sx k))
    (hy : c.jacob.dPhi_dy = fun k => some (sy k))
    (hnd : [sx 0, sy 0, sx 1, sy 1, sx 2, sy 2].Nodup)
    (hux : c.jacob.dot_dPhi_dx = fun k => some (ux k))
    (huy : c.jacob.dot_dPhi_dy = fun k => some (uy k))
    (hund : [ux 0, uy 0, ux 1, uy 1, ux 2, uy 2].Nodup)
    (pts : Fin 3 → PointRef ℝ) (k : Fin 3) :
    IsSumOfPartialsTimesVel (fun q => (update (coordsOf q) c arm).Phi_q_ (sx k)) pts
        ((update (coordsOf pts) c arm).dotPhi_q_ (ux k)) ∧
      IsSumOfPartialsTimesVel (fun q => (update (coordsOf q) c arm).Phi_q_ (sy k)) pts
        ((update (coordsOf pts) c arm).dotPhi_q_ (uy k)) ∧
      ∀ t : ℝ,
        HasDerivAt (fun τ => (update (coordsOf (advance pts τ)) c arm).Phi_q_ (sx k))
            ((update (coordsOf (advance pts t)) c arm).dotPhi_q_ (ux k)) t ∧
          HasDerivAt (fun τ => (update (coordsOf (advance pts τ)) c arm).Phi_q_ (sy k))
            ((update (coordsOf (advance pts t)) c arm).dotPhi_q_ (uy k)) t := by
  have e0 := fun q => (Phi_q_entries c arm sx sy hx hy hnd q).1
  have e1 := fun q => (Phi_q_entries c arm sx sy hx hy hnd q).2.1
  have e2 := fun q => (Phi_q_entries c arm sx sy hx hy hnd q).2.2.1
  have e3 := fun q => (Phi_q_entries c arm sx sy hx hy hnd q).2.2.2.1
  have e4 := fun q => (Phi_q_entries c arm sx sy hx hy hnd q).2.2.2.2.1
  have e5 := fun q => (Phi_q_entries c arm sx sy hx hy hnd q).2.2.2.2.2
  have d0 := fun q => (dotPhi_q_entries c arm ux uy hux huy hund q).1
  have d1 := fun q => (dotPhi_q_entries c arm ux uy hux huy hund q).2.1
  have d2 := fun q => (dotPhi_q_entries c arm ux uy hux huy hund q).2.2.1
  have d3 := fun q => (dotPhi_q_entries c arm ux uy hux huy hund q).2.2.2.1
  have d4 := fun q => (dotPhi_q_entries c arm ux uy hux huy hund q).2.2.2.2.1
  have d5 := fun q => (dotPhi_q_entries c arm ux uy hux huy hund q).2.2.2.2.2
  have mx : ∀ (m : Fin 3) (t : ℝ),
      HasDerivAt (fun τ => (pts m).x + τ * (pts m).dotx) (pts m).dotx t := by
    intro m t
    simpa using ((hasDerivAt_id t).mul_const (pts m).dotx).const_add (pts m).x
  have my : ∀ (m : Fin 3) (t : ℝ),
      HasDerivAt (fun τ => (pts m).y + τ * (pts m).doty) (pts m).doty t := by
    intro m t
    simpa using ((hasDerivAt_id t).mul_const (pts m).doty).const_add (pts m).y
  fin_cases k <;>
    simp only [Fin.zero_eta, Fin.mk_one, Fin.reduceFinMk, e0, e1, e2, e3, e4, e5,
      d0, d1, d2, d3, d4, d5, advance]
  · refine ⟨isSumOfPartialsTimesVel_of_linear ![0, 0, 0] ![0, 1, -1] _ (fun q => ?_) pts _ ?_,
      isSumOfPartialsTimesVel_of_linear ![0, -1, 1] ![0, 0, 0] _ (fun q => ?_) pts _ ?_,
      fun t => ⟨?_, ?_⟩⟩
    · simp; ring
    · simp; ring
    · simp; ring
    · simp; ring
    · exact (my 1 t).sub (my 2 t)
    · exact (mx 2 t).sub (mx 1 t)
  · refine ⟨isSumOfPartialsTimesVel_of_linear ![0, 0, 0] ![-1, 0, 1] _ (fun q => ?_) pts _ ?_,
      isSumOfPartialsTimesVel_of_linear ![1, 0, -1] ![0, 0, 0] _ (fun q => ?_) pts _ ?_,
      fun t => ⟨?_, ?_⟩⟩
    · simp
    · simp
    · simp; ring
    · simp; ring
    · exact ((my 0 t).neg).add (my 2 t)
    · exact (mx 0 t).sub (mx 2 t)
  · refine ⟨isSumOfPartialsTimesVel_of_linear ![0, 0, 0] ![1, -1, 0] _ (fun q => ?_) pts _ ?_,
      isSumOfPartialsTimesVel_of_linear ![-1, 1, 0] ![0, 0, 0] _ (fun q => ?_) pts _ ?_,
      fun t => ⟨?_, ?_⟩⟩
    · simp; ring
    · simp; ring
    · simp
    · simp
    · exact (my 0 t).sub (my 1 t)
    · exact ((mx 0 t).neg).add (mx 1 t)

/-- In the program's doubles, with all three points variable and finite velocities, each
entry of the Jacobian time derivative written by `update` is the entry of exact
arithmetic rounded once to the nearest `double`. -/
theorem double_dotPhi_q_entry_rounds (cR : CConstraintMobileSlider ℝ)
    (armR : CAssembledRigidModel ℝ) (cF : CConstraintMobileSlider F64)
    (armF : CAssembledRigidModel F64) (ux uy : Fin 3 → Slot)
    (hux : cR.jacob.dot_dPhi_dx = fun k => some (ux k))
    (huy : cR.jacob.dot_dPhi_dy = fun k => some (uy k))
    (huxF : cF.jacob.dot_dPhi_dx = fun k => some (ux k))
    (huyF : cF.jacob.dot_dPhi_dy = fun k => some (uy k))
    (hund : [ux 0, uy 0, ux 1, uy 1, ux 2, uy 2].Nodup)
    (ptsF : Fin 3 → PointRef F64) (ptsR : Fin 3 → PointRef ℝ) (hrep : Represents ptsF ptsR)
    (k : Fin 3) :
    (∃ M E : Int, (update (coordsOf ptsF) cF armF).dotPhi_q_ (ux k) = F64.roundDyadic M E ∧
        (M : ℝ) * (2 : ℝ) ^ E = (update (coordsOf ptsR) cR armR).dotPhi_q_ (ux k)) ∧
      ∃ M E : Int, (update (coordsOf ptsF) cF armF).dotPhi_q_ (uy k) = F64.roundDyadic M E ∧
        (M : ℝ) * (2 : ℝ) ^ E = (update (coordsOf ptsR) cR armR).dotPhi_q_ (uy k) := by
  obtain ⟨e0, e1, e2, e3, e4, e5⟩ := dotPhi_q_entries cR armR ux uy hux huy hund ptsR
  obtain ⟨f0, f1, f2, f3, f4, f5⟩ := dotPhi_q_entries cF armF ux uy huxF huyF hund ptsF
  obtain ⟨-, -, u0, v0⟩ := hrep 0
  obtain ⟨-, -, u1, v1⟩ := hrep 1
  obtain ⟨-, -, u2, v2⟩ := hrep 2
  fin_cases k <;>
    simp only [Fin.zero_eta, Fin.mk_one, Fin.reduceFinMk, e0, e1, e2, e3, e4, e5,
      f0, f1, f2, f3, f4, f5]
  · exact ⟨F64.sub_rounds v1 v2, F64.sub_rounds u2 u1⟩
  · exact ⟨F64.add_rounds (F64.is_neg v0) v2, F64.sub_rounds u0 u2⟩
  · exact ⟨F64.sub_rounds v0 v1, F64.add_rounds (F64.is_neg u0) u1⟩

/-- C5, amended. With all three points variable: in exact real arithmetic, for all
positions and velocities, each entry `dot_dPhi_dx[k]`, `dot_dPhi_dy[k]` given by `update`
is the time derivative of the Jacobian entry `dPhi_dx[k]`, `dPhi_dy[k]` along the motion,
that is the sum over the six coordinates of the partial derivative of the Jacobian entry
times the velocity of the coordinate, and the derivative in time of the entry when the
points move with their velocities; in the program's doubles, for finite coordinates and
velocities, each written entry is that exact entry rounded once to the nearest
`double`. -/
theorem slider_dot_jacobian_is_time_derivative (cR : CConstraintMobileSlider ℝ)
    (armR : CAssembledRigidModel ℝ) (cF : CConstraintMobileSlider F64)
    (armF : CAssembledRigidModel F64) (sx sy ux uy : Fin 3 → Slot)
    (hx : cR.jacob.dPhi_dx = fun k => some (sx k))
    (hy : cR.jacob.dPhi_dy = fun k => some (sy k))
    (hnd : [sx 0, sy 0, sx 1, sy 1, sx 2, sy 2].Nodup)
    (hux : cR.jacob.dot_dPhi_dx = fun k => some (ux k))
    (huy : cR.jacob.dot_dPhi_dy = fun k => some (uy k))
    (huxF : cF.jacob.dot_dPhi_dx = fun k => some (ux k))
    (huyF : cF.jacob.dot_dPhi_dy = fun k => some (uy k))
    (hund : [ux 0, uy 0, ux 1, uy 1, ux 2, uy 2].Nodup) (k : Fin 3) :
    (∀ pts : Fin 3 → PointRef ℝ,
        IsSumOfPartialsTimesVel (fun q => (update (coordsOf q) cR armR).Phi_q_ (sx k)) pts
            ((update (coordsOf pts) cR armR).dotPhi_q_ (ux k)) ∧
          IsSumOfPartialsTimesVel (fun q => (update (coordsOf q) cR armR).Phi_q_ (sy k)) pts
            ((update (coordsOf pts) cR armR).dotPhi_q_ (uy k)) ∧
          ∀ t : ℝ,
            HasDerivAt (fun τ => (update (coordsOf (advance pts τ)) cR armR).Phi_q_ (sx k))
                ((update (coordsOf (advance pts t)) cR armR).dotPhi_q_ (ux k)) t ∧
              HasDerivAt (fun τ => (update (coordsOf (advance pts τ)) cR armR).Phi_q_ (sy k))
                ((update (coordsOf (advance pts t)) cR armR).dotPhi_q_ (uy k)) t) ∧
      ∀ (ptsF : Fin 3 → PointRef F64) (ptsR : Fin 3 → PointRef ℝ), Represents ptsF ptsR →
        (∃ M E : Int,
            (update (coordsOf ptsF) cF armF).dotPhi_q_ (ux k) = F64.roundDyadic M E ∧
            (M : ℝ) * (2 : ℝ) ^ E = (update (coordsOf ptsR) cR armR).dotPhi_q_ (ux k)) ∧
          ∃ M E : Int,
            (update (coordsOf ptsF) cF armF).dotPhi_q_ (uy k) = F64.roundDyadic M E ∧
            (M : ℝ) * (2 : ℝ) ^ E = (update (coordsOf ptsR) cR armR).dotPhi_q_ (uy k) :=
  ⟨fun pts =>
      exact_dot_jacobian_is_time_derivative cR armR sx sy ux uy hx hy hnd hux huy hund pts k,
    fun ptsF ptsR hrep =>
      double_dotPhi_q_entry_rounds cR armR cF armF ux uy hux huy huxF huyF hund ptsF ptsR
        hrep k⟩

/-- Witness for the amended C5 on the sample sliders, for the sliding point. -/
theorem slider_dot_jacobian_is_time_derivative_witness :
    [sampleSx 0, sampleSy 0, sampleSx 1, sampleSy 1, sampleSx 2, sampleSy 2].Nodup ∧
      Represents (gridPts fastTable) (gridPtsR fastTable) ∧
      IsSumOfPartialsTimesVel
        (fun q => (update (coordsOf q) sampleSlider sampleModel).Phi_q_ (sampleSx 0))
        samplePts
        ((update (coordsOf samplePts) sampleSlider sampleModel).dotPhi_q_ (sampleSx 0)) ∧
      ∃ M E : Int,
        (update (coordsOf (gridPts fastTable)) sampleSliderF sampleModelF).dotPhi_q_
            (sampleSx 0) = F64.roundDyadic M E ∧
          (M : ℝ) * (2 : ℝ) ^ E =
            (update (coordsOf (gridPtsR fastTable)) sampleSlider sampleModel).dotPhi_q_
              (sampleSx 0) :=
  have h := slider_dot_jacobian_is_time_derivative (sampleSlider : CConstraintMobileSlider ℝ)
    sampleModel sampleSliderF sampleModelF sampleSx sampleSy sampleSx sampleSy rfl rfl
    (by decide) rfl rfl rfl rfl (by decide) 0
  ⟨by decide, represents_fastTable, (h.1 samplePts).1,
    (h.2 (gridPts fastTable) (gridPtsR fastTable) represents_fastTable).1⟩

/-- C5, as stated, fails on the program's doubles. With `p = (0, 0)` at rest,
`pr[0] = (0, 0)` moving at `(0, 0.9)` and `pr[1] = (0, 1)` moving at `(0, 0.7)`, the entry
`dot_dPhi_dx[0]` written by `update` is `0.20000000000000007`, while the central
difference in time of the written entry `dPhi_dx[0]` along the motion, with step `0.5`
(twice the step is `1`), is `0.19999999999999996`: the entry is `-0.9000000000000001`
after time `0.5` and `-1.1` after time `-0.5`. And with `pr[0]` moving at `(0, 10 ^ 16)`
and `pr[1]` at `(0, 1)`, integers that doubles hold exactly, the written entry is
`10 ^ 16`, while the time derivative of the Jacobian entry along the motion is
`10 ^ 16 - 1`. -/
theorem slider_dot_jacobian_entry_inexact_in_double :
    (update (coordsOf driftPts) sampleSliderF sampleModelF).dotPhi_q_ (sampleSx 0) =
        F64.fin 7205759403792796 (-55) ∧
      F64.ofDecimal 5 1 + F64.ofDecimal 5 1 = F64.ofInt 1 ∧
      (update (coordsOf (advance driftPts (F64.ofDecimal 5 1))) sampleSliderF
            sampleModelF).Phi_q_ (sampleSx 0) -
          (update (coordsOf (advance driftPts (-F64.ofDecimal 5 1))) sampleSliderF
            sampleModelF).Phi_q_ (sampleSx 0) =
        F64.fin 7205759403792792 (-55) ∧
      Represents (gridPts fastTable) (gridPtsR fastTable) ∧
      (update (coordsOf (gridPts fastTable)) sampleSliderF sampleModelF).dotPhi_q_
          (sampleSx 0) = F64.ofInt 10000000000000000 ∧
      HasDerivAt
        (fun τ : ℝ =>
          (update (coordsOf (advance (gridPtsR fastTable) τ)) sampleSlider
            sampleModel).Phi_q_ (sampleSx 0))
        9999999999999999 0 := by
  refine ⟨by decide!, by decide!, by decide!, represents_fastTable, by decide!, ?_⟩
  have h := ((exact_dot_jacobian_is_time_derivative (sampleSlider : CConstraintMobileSlider ℝ)
    sampleModel sampleSx sampleSy sampleSx sampleSy rfl rfl (by decide) rfl rfl (by decide)
    (gridPtsR fastTable) 0).2.2 0).1
  have hv : (update (coordsOf (advance (gridPtsR fastTable) 0))
      (sampleSlider : CConstraintMobileSlider ℝ) sampleModel).dotPhi_q_ (sampleSx 0) =
      9999999999999999 := by
    rw [(dotPhi_q_entries (sampleSlider : CConstraintMobileSlider ℝ) sampleModel sampleSx
      sampleSy rfl rfl (by decide) (advance (gridPtsR fastTable) 0)).1]
    simp [advance, gridPtsR, fastTable]
    norm_num
  rw [hv] at h
  exact h

/-- In exact arithmetic the velocity residual given by `update` is the derivative in time
of `Phi` along the motion of the points; at fixed `q` the residual `Phi` has zero
derivative in time; and the velocity residual is zero when all points are at rest. -/
theorem exact_dotPhi_is_total_time_derivative (c : CConstraintMobileSlider ℝ)
    (arm : CAssembledRigidModel ℝ) (pts : Fin 3 → PointRef ℝ) :
    (∀ t : ℝ, HasDerivAt (fun τ => writtenPhi c arm (advance pts τ))
        (writtenDotPhi c arm (advance pts t)) t ∧
      ∀ cfg : ℝ → Fin 3 → PointRef ℝ, (∀ τ k, (cfg τ k).pos = (pts k).pos) →
        HasDerivAt (fun τ => writtenPhi c arm (cfg τ)) 0 t) ∧
      ((∀ k, (pts k).dotx = 0 ∧ (pts k).doty = 0) → writtenDotPhi c arm pts = 0) := by
  refine ⟨fun t => ⟨hasDerivAt_writtenPhi_advance c arm pts t, fun cfg hcfg => ?_⟩,
    fun hrest => ?_⟩
  · have hconst : (fun τ => writtenPhi c arm (cfg τ)) = fun _ => writtenPhi c arm pts := by
      funext τ
      have hk : ∀ k, (cfg τ k).x = (pts k).x ∧ (cfg τ k).y = (pts k).y := by
        intro k
        have h := hcfg τ k
        simp only [PointRef.pos, Prod.mk.injEq] at h
        exact h
      simp only [writtenPhi_eq, (hk 0).1, (hk 0).2, (hk 1).1, (hk 1).2, (hk 2).1, (hk 2).2]
    rw [hconst]
    exact hasDerivAt_const t _
  · simp [writtenDotPhi_eq, (hrest 0).1, (hrest 0).2, (hrest 1).1, (hrest 1).2,
      (hrest 2).1, (hrest 2).2]

/-- A guarded store leaves every slot other than the pointer's target as it was. -/
theorem writeSlot_of_ne {K : Type} (ptr : Option Slot) (a : Slot)
    (h : ptr ≠ some a) (v : K) (st : Slot → K) : writeSlot ptr v st a = st a := by
  cases ptr with
  | none => rfl
  | some s =>
    have hs : a ≠ s := fun e => h (by rw [e])
    simp [writeSlot, Function.update_apply, hs]

/-- C7. Whatever slots of the slider are absent (null), `update` changes the Jacobian
store, the Jacobian-time-derivative store and the bilinear-term store only at the slots
that are present: an entry that is not the target of one of the constraint's present
pointers into a store is the same after the call as before, and a store into which all
pointers are null is unchanged as a whole. -/
theorem slider_update_frame {K : Type} [Add K] [Sub K] [Mul K] [Neg K]
    (actual_coords : CAssembledRigidModel K → Fin 3 → PointRef K)
    (c : CConstraintMobileSlider K) (arm : CAssembledRigidModel K) :
    (∀ a : Slot, (∀ k, c.jacob.dPhi_dx k ≠ some a ∧ c.jacob.dPhi_dy k ≠ some a) →
        (update actual_coords c arm).Phi_q_ a = arm.Phi_q_ a) ∧
      (∀ a : Slot, (∀ k, c.jacob.dot_dPhi_dx k ≠ some a ∧ c.jacob.dot_dPhi_dy k ≠ some a) →
        (update actual_coords c arm).dotPhi_q_ a = arm.dotPhi_q_ a) ∧
      (∀ a : Slot, (∀ k, c.jacob.dPhiqdq_dx k ≠ some a ∧ c.jacob.dPhiqdq_dy k ≠ some a) →
        (update actual_coords c arm).dPhiqdq_dq_ a = arm.dPhiqdq_dq_ a) ∧
      ((∀ k, c.jacob.dPhi_dx k = none ∧ c.jacob.dPhi_dy k = none) →
        (update actual_coords c arm).Phi_q_ = arm.Phi_q_) ∧
      ((∀ k, c.jacob.dot_dPhi_dx k = none ∧ c.jacob.dot_dPhi_dy k = none) →
        (update actual_coords c arm).dotPhi_q_ = arm.dotPhi_q_) ∧
      ((∀ k, c.jacob.dPhiqdq_dx k = none ∧ c.jacob.dPhiqdq_dy k = none) →
        (update actual_coords c arm).dPhiqdq_dq_ = arm.dPhiqdq_dq_) := by
  have f1 : ∀ a : Slot, (∀ k, c.jacob.dPhi_dx k ≠ some a ∧ c.jacob.dPhi_dy k ≠ some a) →
      (update actual_coords c arm).Phi_q_ a = arm.Phi_q_ a := by
    intro a h
    simp only [update, writeSlot_of_ne _ a (h 0).1, writeSlot_of_ne _ a (h 0).2,
      writeSlot_of_ne _ a (h 1).1, writeSlot_of_ne _ a (h 1).2,
      writeSlot_of_ne _ a (h 2).1, writeSlot_of_ne _ a (h 2).2]
  have f2 : ∀ a : Slot,
      (∀ k, c.jacob.dot_dPhi_dx k ≠ some a ∧ c.jacob.dot_dPhi_dy k ≠ some a) →
      (update actual_coords c arm).dotPhi_q_ a = arm.dotPhi_q_ a := by
    intro a h
    simp only [update, writeSlot_of_ne _ a (h 0).1, writeSlot_of_ne _ a (h 0).2,
      writeSlot_of_ne _ a (h 1).1, writeSlot_of_ne _ a (h 1).2,
      writeSlot_of_ne _ a (h 2).1, writeSlot_of_ne _ a (h 2).2]
  have f3 : ∀ a : Slot,
      (∀ k, c.jacob.dPhiqdq_dx k ≠ some a ∧ c.jacob.dPhiqdq_dy k ≠ some a) →
      (update actual_coords c arm).dPhiqdq_dq_ a = arm.dPhiqdq_dq_ a := by
    intro a h
    simp only [update, writeSlot_of_ne _ a (h 0).1, writeSlot_of_ne _ a (h 0).2,
      writeSlot_of_ne _ a (h 1).1, writeSlot_of_ne _ a (h 1).2,
      writeSlot_of_ne _ a (h 2).1, writeSlot_of_ne _ a (h 2).2]
  refine ⟨f1, f2, f3, fun h => funext fun a => f1 a fun k => ?_,
    fun h => funext fun a => f2 a fun k => ?_, fun h => funext fun a => f3 a fun k => ?_⟩ <;>
    simp [(h k).1, (h k).2]

/-- Witness for C7: on the slider whose reference points are fixed, the entry (0, 2) of
the Jacobian store, which no present pointer targets, keeps its value. -/
theorem slider_update_frame_witness :
    (∀ k, (sampleSliderFixedRefs : CConstraintMobileSlider ℤ).jacob.dPhi_dx k ≠ some (0, 2) ∧
        (sampleSliderFixedRefs : CConstraintMobileSlider ℤ).jacob.dPhi_dy k ≠ some (0, 2)) ∧
      (update (coordsOf samplePts) sampleSliderFixedRefs (sampleModel : CAssembledRigidModel ℤ)).Phi_q_
          (0, 2) = (sampleModel : CAssembledRigidModel ℤ).Phi_q_ (0, 2) :=
  ⟨by decide,
    (slider_update_frame (coordsOf samplePts) sampleSliderFixedRefs
      (sampleModel : CAssembledRigidModel ℤ)).1 (0, 2) (by decide)⟩

/-- C8, as stated, fails: the error is raised after the common helper has worked on the
model, and what the helper did stays. For the sample slider on three fixed points and a
helper that sets residual row 0 of the model to 7, the call raises the assertion and the
model it leaves has `Phi_[0] = 7`, where the model before the call had `Phi_[0] = 0`. -/
theorem buildSparseStructures_all_fixed_keeps_helper_effect :
    (∀ i, ((sampleSliderAllFixed : CConstraintMobileSlider ℤ).points_ i).fixed = true) ∧
      (buildSparseStructures sampleCommonTracing
          (sampleSliderAllFixed : CConstraintMobileSlider ℤ) sampleModel).error =
        some "Useless constraint added to a fixed point!" ∧
      (sampleModel : CAssembledRigidModel ℤ).Phi_ 0 = 0 ∧
      (buildSparseStructures sampleCommonTracing
          (sampleSliderAllFixed : CConstraintMobileSlider ℤ) sampleModel).arm.Phi_ 0 = 7 :=
  ⟨by decide, rfl, rfl, rfl⟩

/-- C8, amended. `buildSparseStructures` on a slider whose three referenced points are
all fixed raises an error, whatever the common helper does, and it does so after the
helper has run: the model is left as the helper left it, nothing the helper registered
is undone; when the helper returns normally the error is the assertion on the sliding
point, and when the helper raises the error is the helper's. -/
theorem buildSparseStructures_all_fixed_fails {K : Type}
    (common : CAssembledRigidModel K → Outcome K) (c : CConstraintMobileSlider K)
    (arm : CAssembledRigidModel K) (hfixed : ∀ i, (c.points_ i).fixed = true) :
    (buildSparseStructures common c arm).error ≠ none ∧
      (buildSparseStructures common c arm).arm = (common arm).arm ∧
      ((common arm).error = none →
        (buildSparseStructures common c arm).error =
          some "Useless constraint added to a fixed point!") ∧
      ((common arm).error ≠ none →
        (buildSparseStructures common c arm).error = (common arm).error) := by
  have h0 := hfixed 0
  cases hc : (common arm).error with
  | none => simp [buildSparseStructures, hc, h0]
  | some e => simp [buildSparseStructures, hc]

/-- Witness for the amended C8: the sample slider on three fixed points is rejected, by
the assertion, and the model is the one the helper left. -/
theorem buildSparseStructures_all_fixed_fails_witness :
    (∀ i, ((sampleSliderAllFixed : CConstraintMobileSlider ℤ).points_ i).fixed = true) ∧
      (sampleCommon (sampleModel : CAssembledRigidModel ℤ)).error = none ∧
      (buildSparseStructures sampleCommon (sampleSliderAllFixed : CConstraintMobileSlider ℤ)
          sampleModel).error = some "Useless constraint added to a fixed point!" ∧
      (buildSparseStructures sampleCommon (sampleSliderAllFixed : CConstraintMobileSlider ℤ)
          sampleModel).arm = (sampleCommon (sampleModel : CAssembledRigidModel ℤ)).arm :=
  have h := buildSparseStructures_all_fixed_fails sampleCommon
    (sampleSliderAllFixed : CConstraintMobileSlider ℤ) sampleModel (by decide)
  ⟨by decide, rfl, h.2.2.1 rfl, h.2.1⟩

end Slider

section BodyTheorems

variable {K : Type}

/-- C9. For every body state, each mutating accessor (`mass()`, `cog()`, `length()`,
`I0()`) leaves the cache flag false whatever it was, returning a reference to its own
attribute and leaving the attributes as they were; each const accessor returns the stored
attribute and leaves the whole body, flag included, unchanged. -/
theorem body_accessors (b : CBody K) :
    ((CBody.mass_mut b).2.mass_matrices_cached_ = false ∧
        (CBody.cog_mut b).2.mass_matrices_cached_ = false ∧
        (CBody.length_mut b).2.mass_matrices_cached_ = false ∧
        (CBody.I0_mut b).2.mass_matrices_cached_ = false) ∧
      ((CBody.mass_mut b).1 = ScalarRef.mass_ ∧ (CBody.cog_mut b).1 = PointAttrRef.cog_ ∧
        (CBody.length_mut b).1 = ScalarRef.length_ ∧ (CBody.I0_mut b).1 = ScalarRef.I0_) ∧
      ((CBody.mass_mut b).2.attrs = b.attrs ∧ (CBody.cog_mut b).2.attrs = b.attrs ∧
        (CBody.length_mut b).2.attrs = b.attrs ∧ (CBody.I0_mut b).2.attrs = b.attrs) ∧
      (CBody.mass b = (b.mass_, b) ∧ CBody.cog b = (b.cog_, b) ∧
        CBody.length b = (b.length_, b) ∧ CBody.I0 b = (b.I0_, b)) :=
  ⟨⟨rfl, rfl, rfl, rfl⟩, ⟨rfl, rfl, rfl, rfl⟩, ⟨rfl, rfl, rfl, rfl⟩, ⟨rfl, rfl, rfl, rfl⟩⟩

/-- A body whose cache flag is cleared is coherent. -/
theorem coherent_of_flag_false (f : K → TPoint2D K → K → K → MassBlocks K) (b : CBody K)
    (h : b.mass_matrices_cached_ = false) : b.Coherent f := by
  intro hc
  rw [h] at hc
  exact absurd hc (by decide)

/-- On a coherent body, a lazy refresh yields a coherent body with the same attributes
whose stored blocks are those of the current attributes. -/
theorem refresh_spec (f : K → TPoint2D K → K → K → MassBlocks K) (b : CBody K)
    (hb : b.Coherent f)
    (b1 : CBody K)
    (hb1 : b1 = if b.mass_matrices_cached_ then b
      else CBody.internal_update_mass_submatrices f b) :
    b1.attrs = b.attrs ∧ b1.Coherent f ∧
      b1.M00_ = (f b.mass_ b.cog_ b.length_ b.I0_).M00 ∧
      b1.M11_ = (f b.mass_ b.cog_ b.length_ b.I0_).M11 ∧
      b1.M01_ = (f b.mass_ b.cog_ b.length_ b.I0_).M01 := by
  cases hflag : b.mass_matrices_cached_ with
  | true =>
    rw [hflag] at hb1
    simp only [if_true] at hb1
    subst hb1
    exact ⟨rfl, hb, hb hflag⟩
  | false =>
    rw [hflag] at hb1
    simp only [Bool.false_eq_true, if_false] at hb1
    subst hb1
    refine ⟨rfl, ?_, rfl, rfl, rfl⟩
    intro _
    exact ⟨rfl, rfl, rfl⟩

/-- C10, amended. Cache coherence: starting from a body whose cache is coherent (any body
whose flag is cleared is), for every sequence of block reads and of attribute mutations
each made by a call of the mutating accessor followed at once by the assignment through
the reference it returns (`b.mass() = v`), the blocks returned by the reads are those of
the cache-free reference, which evaluates the mass formula on the attribute values
current at the time of each read. -/
theorem body_cache_coherent (f : K → TPoint2D K → K → K → MassBlocks K)
    (ops : List (BodyOp K)) (b : CBody K) (hb : b.Coherent f) :
    runBody f ops b = runFresh f ops b.attrs := by
  induction ops generalizing b with
  | nil => rfl
  | cons op ops ih =>
    cases op with
    | setMass v =>
      simp only [runBody, stepBody, runFresh]
      exact ih _ (coherent_of_flag_false f _ rfl)
    | setCog v =>
      simp only [runBody, stepBody, runFresh]
      exact ih _ (coherent_of_flag_false f _ rfl)
    | setLength v =>
      simp only [runBody, stepBody, runFresh]
      exact ih _ (coherent_of_flag_false f _ rfl)
    | setI0 v =>
      simp only [runBody, stepBody, runFresh]
      exact ih _ (coherent_of_flag_false f _ rfl)
    | readM00 =>
      obtain ⟨ha, hc, h00, -, -⟩ := refresh_spec f b hb (CBody.getM00 f b).2 rfl
      simp only [runBody, stepBody, runFresh]
      rw [ih _ hc, ha]
      exact congrArg (fun m => m :: _) h00
    | readM11 =>
      obtain ⟨ha, hc, -, h11, -⟩ := refresh_spec f b hb (CBody.getM11 f b).2 rfl
      simp only [runBody, stepBody, runFresh]
      rw [ih _ hc, ha]
      exact congrArg (fun m => m :: _) h11
    | readM01 =>
      obtain ⟨ha, hc, -, -, h01⟩ := refresh_spec f b hb (CBody.getM01 f b).2 rfl
      simp only [runBody, stepBody, runFresh]
      rw [ih _ hc, ha]
      exact congrArg (fun m => m :: _) h01

/-- Witness for the amended C10: set the mass, read `M00`, set the mass again, read `M00` again; the
second read reflects the second mass. -/
theorem body_cache_coherent_witness :
    sampleBody.Coherent sampleMassFormula ∧
      runBody sampleMassFormula
          [BodyOp.setMass 5, BodyOp.readM00, BodyOp.setMass 7, BodyOp.readM00] sampleBody =
        runFresh sampleMassFormula
          [BodyOp.setMass 5, BodyOp.readM00, BodyOp.setMass 7, BodyOp.readM00]
          sampleBody.attrs :=
  ⟨coherent_of_flag_false sampleMassFormula sampleBody rfl,
    body_cache_coherent sampleMassFormula _ sampleBody
      (coherent_of_flag_false sampleMassFormula sampleBody rfl)⟩

/-- C10, as stated, fails: a mutation made through a reference that was obtained before
a read is not seen by the next read. On the sample body (mass 1), `double& m = b.mass()`,
then a read of `M00`, then `m = 7`, then a second read of `M00`: at the second read the
mass is 7, yet the block returned is the one computed from mass 1, not the one that
`evaluateMassMatrix` gives for the current attributes. -/
theorem body_read_stale_after_write_through_reference :
    (CBody.assign (CBody.mass_mut sampleBody).1 7
        (CBody.getM00 sampleMassFormula (CBody.mass_mut sampleBody).2).2).mass_ = 7 ∧
      (CBody.getM00 sampleMassFormula
          (CBody.assign (CBody.mass_mut sampleBody).1 7
            (CBody.getM00 sampleMassFormula (CBody.mass_mut sampleBody).2).2)).1 =
        (sampleMassFormula 1 ⟨0, 0⟩ 2 3).M00 ∧
      (CBody.getM00 sampleMassFormula
          (CBody.assign (CBody.mass_mut sampleBody).1 7
            (CBody.getM00 sampleMassFormula (CBody.mass_mut sampleBody).2).2)).1 ≠
        (CBody.evaluateMassMatrix sampleMassFormula
          (CBody.assign (CBody.mass_mut sampleBody).1 7
            (CBody.getM00 sampleMassFormula (CBody.mass_mut sampleBody).2).2)).M00 := by
  decide

end BodyTheorems

section FactorTheorems

/-- C11. Configuration errors are raised before the model is touched:
`FactorConstraints::evaluateError` raises on an empty `q_k`, and
`FactorConstraintsVel::evaluateError` raises on an empty `q_k` or when `dotq_k` and `q_k`
differ in size; in each case the model after the call is the model before it (its `q`,
`dotq` and everything else). -/
theorem factor_config_errors_leave_model {K : Type} [CommRing K] (ms : ModelStructure K)
    (arm : CAssembledRigidModel K) (q_k dotq_k : List K) (wantH1 wantH2 : Bool) :
    (q_k = [] →
        (FactorConstraints.evaluateError ms arm q_k wantH1).raised ≠ none ∧
          (FactorConstraints.evaluateError ms arm q_k wantH1).arm = arm) ∧
      ((q_k = [] ∨ dotq_k.length ≠ q_k.length) →
        (FactorConstraintsVel.evaluateError ms arm q_k dotq_k wantH1 wantH2).raised ≠ none ∧
          (FactorConstraintsVel.evaluateError ms arm q_k dotq_k wantH1 wantH2).arm = arm) := by
  constructor
  · intro hq
    subst hq
    simp [FactorConstraints.evaluateError, FactorOutcome.raised]
  · intro h
    by_cases hlen : dotq_k.length ≠ q_k.length
    · simp [FactorConstraintsVel.evaluateError, hlen, FactorOutcome.raised]
    · rcases h with hq | hne
      · subst hq
        push_neg at hlen
        simp [FactorConstraintsVel.evaluateError, hlen, FactorOutcome.raised]
      · exact absurd hne hlen

/-- Witness for C11: an empty state on the sample model, and a velocity vector shorter
than the state. -/
theorem factor_config_errors_leave_model_witness :
    (([] : List ℤ) = [] ∧
        (FactorConstraints.evaluateError sampleStructure sampleModel ([] : List ℤ)
          true).arm = sampleModel) ∧
      ((([1, 2] : List ℤ) = [] ∨ ([5] : List ℤ).length ≠ ([1, 2] : List ℤ).length) ∧
        (FactorConstraintsVel.evaluateError sampleStructure sampleModel ([1, 2] : List ℤ)
          [5] true true).arm = sampleModel) :=
  have h := factor_config_errors_leave_model (sampleStructure : ModelStructure ℤ)
    sampleModel [] [] true true
  have h2 := factor_config_errors_leave_model (sampleStructure : ModelStructure ℤ)
    sampleModel [1, 2] [5] true true
  ⟨⟨rfl, (h.1 rfl).2⟩, ⟨Or.inr (by decide), (h2.2 (Or.inr (by decide))).2⟩⟩

/-- C13. `buildSparseStructures` raises whenever the sliding point (index 0) is fixed,
whatever the two reference points are; the model is then as the common helper left it,
so the rejection comes after the helper has run on the model, and when the helper
returns normally the error is the assertion on the sliding point. -/
theorem buildSparseStructures_fixed_sliding_point_fails {K : Type}
    (common : CAssembledRigidModel K → Outcome K) (c : CConstraintMobileSlider K)
    (arm : CAssembledRigidModel K) (h0 : (c.points_ 0).fixed = true) :
    (buildSparseStructures common c arm).error ≠ none ∧
      (buildSparseStructures common c arm).arm = (common arm).arm ∧
      ((common arm).error = none →
        (buildSparseStructures common c arm).error =
          some "Useless constraint added to a fixed point!") := by
  cases hc : (common arm).error with
  | none => simp [buildSparseStructures, hc, h0]
  | some e => simp [buildSparseStructures, hc]

/-- Witness for C13: a slider whose sliding point is fixed and whose reference points
are variable is rejected, and the model carries the trace of the common helper. -/
theorem buildSparseStructures_fixed_sliding_point_fails_witness :
    (((sampleSliderFixedSliding : CConstraintMobileSlider ℤ).points_ 0).fixed = true ∧
        ((sampleSliderFixedSliding : CConstraintMobileSlider ℤ).points_ 1).fixed = false ∧
        ((sampleSliderFixedSliding : CConstraintMobileSlider ℤ).points_ 2).fixed = false) ∧
      (buildSparseStructures sampleCommonTracing
          (sampleSliderFixedSliding : CConstraintMobileSlider ℤ) sampleModel).error =
        some "Useless constraint added to a fixed point!" ∧
      (buildSparseStructures sampleCommonTracing
          (sampleSliderFixedSliding : CConstraintMobileSlider ℤ) sampleModel).arm.Phi_ 0 = 7 :=
  have h := buildSparseStructures_fixed_sliding_point_fails sampleCommonTracing
    (sampleSliderFixedSliding : CConstraintMobileSlider ℤ) sampleModel rfl
  ⟨⟨rfl, rfl, rfl⟩, h.2.2 rfl, by rw [h.2.1]; rfl⟩

/-- With all coordinate indices in range, `actual_coords` is defined, and on two models
with the same `q_` it reads the same position. -/
theorem actual_coords_in_range {K : Type} [Zero K] (s : RegisteredSlider K) (n : Nat)
    (hwf : ∀ i : Fin 3, (s.pointDOFs_ i).all (fun d => decide (d.1 < n ∧ d.2 < n)) = true)
    (arm1 arm2 : CAssembledRigidModel K) (hq : arm1.q_ = arm2.q_)
    (hl : arm1.q_.length = n) (hd1 : arm1.dotq_.length = n) (hd2 : arm2.dotq_.length = n)
    (i : Fin 3) :
    ∃ p1 p2 : PointRef K, actual_coords s arm1 i = some p1 ∧ actual_coords s arm2 i = some p2 ∧
      p1.x = p2.x ∧ p1.y = p2.y := by
  have hw := hwf i
  unfold actual_coords
  cases hdof : s.pointDOFs_ i with
  | none => exact ⟨_, _, rfl, rfl, rfl, rfl⟩
  | some d =>
    obtain ⟨dx, dy⟩ := d
    rw [hdof] at hw
    simp only [Option.all_some, decide_eq_true_eq] at hw
    have hl2 : arm2.q_.length = n := by rw [← hq]; exact hl
    have a1 : dx < arm1.q_.length := by omega
    have a2 : dy < arm1.q_.length := by omega
    have a3 : dx < arm1.dotq_.length := by omega
    have a4 : dy < arm1.dotq_.length := by omega
    have b1 : dx < arm2.q_.length := by omega
    have b2 : dy < arm2.q_.length := by omega
    have b3 : dx < arm2.dotq_.length := by omega
    have b4 : dy < arm2.dotq_.length := by omega
    simp only [List.getElem?_eq_getElem a1, List.getElem?_eq_getElem a2,
      List.getElem?_eq_getElem a3, List.getElem?_eq_getElem a4,
      List.getElem?_eq_getElem b1, List.getElem?_eq_getElem b2,
      List.getElem?_eq_getElem b3, List.getElem?_eq_getElem b4]
    refine ⟨_, _, rfl, rfl, ?_, ?_⟩
    · simp only [hq]
    · simp only [hq]

/-- One guarded store keeps two stores in step: a slot on which the two stores agree, or
on which both still hold their original values, is again such a slot after the same
value is stored through the same pointer in both. -/
theorem writeSlot_in_step {K : Type} (ptr : Option Slot) (v : K)
    (f1 f2 st1 st2 : Slot → K) (a : Slot)
    (h : f1 a = f2 a ∨ (f1 a = st1 a ∧ f2 a = st2 a)) :
    writeSlot ptr v f1 a = writeSlot ptr v f2 a ∨
      (writeSlot ptr v f1 a = st1 a ∧ writeSlot ptr v f2 a = st2 a) := by
  cases ptr with
  | none => exact h
  | some s =>
    by_cases hs : a = s
    · left
      simp [writeSlot, Function.update_apply, hs]
    · simpa [writeSlot, Function.update_apply, hs] using h

/-- One `update` on two models, with coordinates that agree in the positions: every slot
of the Jacobian store either receives the same value in both, or keeps its value in
both. -/
theorem update_Phi_q_in_step {K : Type} [Add K] [Sub K] [Mul K] [Neg K]
    (c : CConstraintMobileSlider K) (pts1 pts2 : Fin 3 → PointRef K)
    (hp : ∀ i, (pts1 i).x = (pts2 i).x ∧ (pts1 i).y = (pts2 i).y)
    (arm1 arm2 : CAssembledRigidModel K) (a : Slot) :
    (update (coordsOf pts1) c arm1).Phi_q_ a = (update (coordsOf pts2) c arm2).Phi_q_ a ∨
      ((update (coordsOf pts1) c arm1).Phi_q_ a = arm1.Phi_q_ a ∧
        (update (coordsOf pts2) c arm2).Phi_q_ a = arm2.Phi_q_ a) := by
  simp only [update, coordsOf, (hp 0).1, (hp 0).2, (hp 1).1, (hp 1).2, (hp 2).1, (hp 2).2]
  repeat apply writeSlot_in_step
  exact Or.inr ⟨rfl, rfl⟩

/-- One update of a registered slider with all indices in range, on two models with the
same `q_`: both updates are defined, they leave `q_` and `dotq_` as they are, and every
slot of the Jacobian store receives the same value in both or keeps its value in both. -/
theorem updateRegistered_in_step {K : Type} [Zero K] [Add K] [Sub K] [Mul K] [Neg K]
    (s : RegisteredSlider K) (n : Nat)
    (hwf : ∀ i : Fin 3, (s.pointDOFs_ i).all (fun d => decide (d.1 < n ∧ d.2 < n)) = true)
    (arm1 arm2 : CAssembledRigidModel K) (hq : arm1.q_ = arm2.q_)
    (hl : arm1.q_.length = n) (hd1 : arm1.dotq_.length = n) (hd2 : arm2.dotq_.length = n) :
    ∃ r1 r2 : CAssembledRigidModel K,
      updateRegistered s arm1 = some r1 ∧ updateRegistered s arm2 = some r2 ∧
        r1.q_ = arm1.q_ ∧ r1.dotq_ = arm1.dotq_ ∧ r2.q_ = arm2.q_ ∧ r2.dotq_ = arm2.dotq_ ∧
        ∀ a : Slot, r1.Phi_q_ a = r2.Phi_q_ a ∨
          (r1.Phi_q_ a = arm1.Phi_q_ a ∧ r2.Phi_q_ a = arm2.Phi_q_ a) := by
  obtain ⟨p0, q0, h0, k0, x0, y0⟩ := actual_coords_in_range s n hwf arm1 arm2 hq hl hd1 hd2 0
  obtain ⟨p1, q1, h1, k1, x1, y1⟩ := actual_coords_in_range s n hwf arm1 arm2 hq hl hd1 hd2 1
  obtain ⟨p2, q2, h2, k2, x2, y2⟩ := actual_coords_in_range s n hwf arm1 arm2 hq hl hd1 hd2 2
  refine ⟨update (coordsOf ![p0, p1, p2]) s.constraint arm1,
    update (coordsOf ![q0, q1, q2]) s.constraint arm2, ?_, ?_, rfl, rfl, rfl, rfl, ?_⟩
  · simp only [updateRegistered, h0, h1, h2]
  · simp only [updateRegistered, k0, k1, k2]
  · intro a
    apply update_Phi_q_in_step
    intro i
    fin_cases i
    · exact ⟨x0, y0⟩
    · exact ⟨x1, y1⟩
    · exact ⟨x2, y2⟩

/-- Updating every constraint of a well-formed model, on two models with the same `q_`
of the right size: both runs are defined, leave `q_` and `dotq_` as they are, and give
every slot of the Jacobian store the same value in both or leave it untouched in both. -/
theorem foldlM_update_in_step {K : Type} [Zero K] [Add K] [Sub K] [Mul K] [Neg K]
    (cs : List (RegisteredSlider K)) (n : Nat)
    (hwf : ∀ s ∈ cs, ∀ i : Fin 3,
      (s.pointDOFs_ i).all (fun d => decide (d.1 < n ∧ d.2 < n)) = true)
    (arm1 arm2 : CAssembledRigidModel K) (hq : arm1.q_ = arm2.q_)
    (hl : arm1.q_.length = n) (hd1 : arm1.dotq_.length = n) (hd2 : arm2.dotq_.length = n) :
    ∃ r1 r2 : CAssembledRigidModel K,
      cs.foldlM (fun a s => updateRegistered s a) arm1 = some r1 ∧
        cs.foldlM (fun a s => updateRegistered s a) arm2 = some r2 ∧
        r1.q_ = arm1.q_ ∧ r1.dotq_ = arm1.dotq_ ∧ r2.q_ = arm2.q_ ∧ r2.dotq_ = arm2.dotq_ ∧
        ∀ a : Slot, r1.Phi_q_ a = r2.Phi_q_ a ∨
          (r1.Phi_q_ a = arm1.Phi_q_ a ∧ r2.Phi_q_ a = arm2.Phi_q_ a) := by
  induction cs generalizing arm1 arm2 with
  | nil => exact ⟨arm1, arm2, rfl, rfl, rfl, rfl, rfl, rfl, fun a => Or.inr ⟨rfl, rfl⟩⟩
  | cons s cs ih =>
    obtain ⟨m1, m2, e1, e2, mq1, md1, mq2, md2, hstep⟩ :=
      updateRegistered_in_step s n (hwf s (List.mem_cons_self s cs)) arm1 arm2 hq hl hd1 hd2
    obtain ⟨r1, r2, f1, f2, rq1, rd1, rq2, rd2, hrest⟩ :=
      ih (fun t ht => hwf t (List.mem_cons_of_mem s ht)) m1 m2
        (by rw [mq1, mq2, hq]) (by rw [mq1, hl]) (by rw [md1, hd1]) (by rw [md2, hd2])
    refine ⟨r1, r2, ?_, ?_, rq1.trans mq1, rd1.trans md1, rq2.trans mq2, rd2.trans md2, ?_⟩
    · simp only [List.foldlM_cons, e1, Option.bind_eq_bind, Option.some_bind, f1]
    · simp only [List.foldlM_cons, e2, Option.bind_eq_bind, Option.some_bind, f2]
    · intro a
      rcases hrest a with h | ⟨h1, h2⟩
      · exact Or.inl h
      · rcases hstep a with h3 | ⟨h3, h4⟩
        · left
          rw [h1, h2, h3]
        · right
          exact ⟨h1.trans h3, h2.trans h4⟩

/-- A dense matrix with rows of the size of the vector has a defined product with it. -/
theorem mulVec_getPhi_q_dense {K : Type} [Zero K] [Add K] [Sub K] [Mul K] [Neg K]
    (ms : ModelStructure K) (arm : CAssembledRigidModel K) (d : List K)
    (hd : d.length = ms.nCols) :
    mulVec (getPhi_q_dense ms arm) d =
      some ((getPhi_q_dense ms arm).map fun row => rowDot row d) := by
  unfold mulVec
  rw [if_pos]
  simp [getPhi_q_dense, hd]

/-- One evaluation of the velocity factor on a well-formed model, at positions `q_k` of
the right size, on a model whose Jacobian store is that of a reference model or already
holds the Jacobian reached from the reference model at `q_k`: the evaluation returns,
the residual is that Jacobian times the velocity, `H2` is that Jacobian when requested,
and the store is left holding it. -/
theorem velFactor_eval {K : Type} [Zero K] [Add K] [Sub K] [Mul K] [Neg K]
    (ms : ModelStructure K) (hwf : ms.WellFormed) (arm0 armRef r2 : CAssembledRigidModel K)
    (q_k d : List K) (hn : q_k.length = ms.nCols) (hpos : 0 < q_k.length)
    (hlen : d.length = q_k.length) (hrq : armRef.q_ = q_k)
    (hrd : armRef.dotq_.length = ms.nCols)
    (hr2 : update_numeric_Phi_and_Jacobians ms armRef = some r2)
    (hst : arm0.Phi_q_ = armRef.Phi_q_ ∨ arm0.Phi_q_ = r2.Phi_q_) (wantH1 wantH2 : Bool) :
    (FactorConstraintsVel.evaluateError ms arm0 q_k d wantH1 wantH2).residual =
        some ((getPhi_q_dense ms r2).map fun row => rowDot row d) ∧
      (FactorConstraintsVel.evaluateError ms arm0 q_k d wantH1 wantH2).jacobianH2 =
        (if wantH2 then some (getPhi_q_dense ms r2) else none) ∧
      (FactorConstraintsVel.evaluateError ms arm0 q_k d wantH1 wantH2).arm.Phi_q_ =
        r2.Phi_q_ := by
  obtain ⟨r1, r2', e1, e2, -, -, -, -, hstep⟩ :=
    foldlM_update_in_step ms.constraints_ ms.nCols hwf
      { arm0 with q_ := q_k, dotq_ := d } armRef hrq.symm hn (hlen.trans hn) hrd
  have e2' : update_numeric_Phi_and_Jacobians ms armRef = some r2' := e2
  rw [hr2] at e2'
  injection e2' with e2'
  subst e2'
  have hstore : r1.Phi_q_ = r2.Phi_q_ := by
    funext a
    rcases hstep a with h | ⟨h1, h2⟩
    · exact h
    · rcases hst with h3 | h3
      · rw [h1, h2]
        exact congrFun h3 a
      · rw [h1]
        exact congrFun h3 a
  have hdense : getPhi_q_dense ms r1 = getPhi_q_dense ms r2 := by
    simp only [getPhi_q_dense, hstore]
  have e1' : update_numeric_Phi_and_Jacobians ms { arm0 with q_ := q_k, dotq_ := d } =
      some r1 := e1
  have hmul := mulVec_getPhi_q_dense ms r2 d (hlen.trans hn)
  simp only [FactorConstraintsVel.evaluateError, hlen, ne_eq, not_true_eq_false, if_false,
    gt_iff_lt, hpos, e1', hdense, hmul, FactorOutcome.residual, FactorOutcome.jacobianH2]
  exact ⟨trivial, trivial, hstore⟩

/-- On a well-formed model, for positions `q_k` of the size of the model, the dense
Jacobian `Phi_q(q_k)` is defined, and every evaluation of the velocity factor at `q_k`
with a velocity of the same size returns it times the velocity as residual, and returns
it as `H2` when requested, also on the model as an earlier evaluation at `q_k` left it. -/
theorem velFactor_returns {K : Type} [Zero K] [Add K] [Sub K] [Mul K] [Neg K]
    (ms : ModelStructure K) (hwf : ms.WellFormed) (arm : CAssembledRigidModel K)
    (q_k : List K) (hn : q_k.length = ms.nCols) (hpos : 0 < q_k.length)
    (wantH1 wantH2 : Bool) :
    ∃ J : List (List K), jacobianAt ms arm q_k = some J ∧
      ∀ d : List K, d.length = q_k.length →
        ((FactorConstraintsVel.evaluateError ms arm q_k d wantH1 wantH2).residual =
            some (J.map fun row => rowDot row d) ∧
          (FactorConstraintsVel.evaluateError ms arm q_k d wantH1 wantH2).jacobianH2 =
            (if wantH2 then some J else none)) ∧
        ∀ d0 : List K, d0.length = q_k.length →
          (FactorConstraintsVel.evaluateError ms
              (FactorConstraintsVel.evaluateError ms arm q_k d0 wantH1 wantH2).arm q_k d
              wantH1 wantH2).residual = some (J.map fun row => rowDot row d) ∧
            (FactorConstraintsVel.evaluateError ms
              (FactorConstraintsVel.evaluateError ms arm q_k d0 wantH1 wantH2).arm q_k d
              wantH1 wantH2).jacobianH2 = (if wantH2 then some J else none) := by
  have hzl : (q_k.map fun _ => (0 : K)).length = ms.nCols := by
    rw [List.length_map]
    exact hn
  obtain ⟨r2, -, hr2, -, -, -, -, -⟩ :=
    foldlM_update_in_step ms.constraints_ ms.nCols hwf
      { arm with q_ := q_k, dotq_ := q_k.map fun _ => (0 : K) }
      { arm with q_ := q_k, dotq_ := q_k.map fun _ => (0 : K) } rfl hn hzl hzl
  have hr2' : update_numeric_Phi_and_Jacobians ms
      { arm with q_ := q_k, dotq_ := q_k.map fun _ => (0 : K) } = some r2 := hr2
  refine ⟨getPhi_q_dense ms r2, ?_, fun d hd => ?_⟩
  · simp only [jacobianAt, hr2', Option.map_some']
  · have first := fun (x : List K) (hx : x.length = q_k.length) =>
      velFactor_eval ms hwf arm { arm with q_ := q_k, dotq_ := q_k.map fun _ => (0 : K) } r2
        q_k x hn hpos hx rfl hzl hr2' (Or.inl rfl) wantH1 wantH2
    refine ⟨⟨(first d hd).1, (first d hd).2.1⟩, fun d0 hd0 => ?_⟩
    have h := velFactor_eval ms hwf
      (FactorConstraintsVel.evaluateError ms arm q_k d0 wantH1 wantH2).arm
      { arm with q_ := q_k, dotq_ := q_k.map fun _ => (0 : K) } r2 q_k d hn hpos hd rfl hzl
      hr2' (Or.inr (first d0 hd0).2.2) wantH1 wantH2
    exact ⟨h.1, h.2.1⟩

/-- In exact arithmetic, adding a list to a start value from left to right gives the
start value plus the sum of the list. -/
theorem foldl_add_eq_sum {K : Type} [CommRing K] (ts : List K) (t : K) :
    ts.foldl (fun acc x => acc + x) t = t + ts.sum := by
  induction ts generalizing t with
  | nil => simp
  | cons x ts ih => simp [ih, add_assoc]

/-- In exact arithmetic the row product is the sum of the products of the entries. -/
theorem rowDot_eq_sum {K : Type} [CommRing K] (row v : List K) :
    rowDot row v = (List.zipWith (fun a b => a * b) row v).sum := by
  unfold rowDot
  cases List.zipWith (fun a b => a * b) row v with
  | nil => simp
  | cons t ts => simp [foldl_add_eq_sum]

/-- In exact arithmetic the product of a row with a scaled vector is the scaled
product. -/
theorem rowDot_vscale {K : Type} [CommRing K] (c : K) (row v : List K) :
    rowDot row (vscale c v) = c * rowDot row v := by
  rw [rowDot_eq_sum, rowDot_eq_sum]
  induction row generalizing v with
  | nil => simp
  | cons r row ih =>
    cases v with
    | nil => simp [vscale]
    | cons x v =>
      have h := ih v
      simp only [vscale, List.map_cons, List.zipWith_cons_cons, List.sum_cons] at h ⊢
      rw [h]
      ring

/-- In exact arithmetic the product of a row with a sum of two vectors of the same size
is the sum of the products. -/
theorem rowDot_vadd {K : Type} [CommRing K] (row a b : List K) (hab : a.length = b.length) :
    rowDot row (vadd a b) = rowDot row a + rowDot row b := by
  rw [rowDot_eq_sum, rowDot_eq_sum, rowDot_eq_sum]
  induction row generalizing a b with
  | nil => simp
  | cons r row ih =>
    cases a with
    | nil =>
      cases b with
      | nil => simp [vadd]
      | cons y b => simp at hab
    | cons x a =>
      cases b with
      | nil => simp at hab
      | cons y b =>
        have h := ih a b (by simpa using hab)
        simp only [vadd, List.zipWith_cons_cons, List.sum_cons] at h ⊢
        rw [h]
        ring

/-- In exact arithmetic a matrix applied to a scaled vector is the scaled image. -/
theorem map_rowDot_vscale {K : Type} [CommRing K] (M : List (List K)) (c : K) (v : List K) :
    (M.map fun row => rowDot row (vscale c v)) = vscale c (M.map fun row => rowDot row v) := by
  induction M with
  | nil => rfl
  | cons row M ih =>
    simp only [List.map_cons, vscale] at ih ⊢
    rw [← ih]
    have h := rowDot_vscale c row v
    simp only [vscale] at h
    rw [h]

/-- In exact arithmetic a matrix applied to a sum of two vectors of the same size is the
sum of the images. -/
theorem map_rowDot_vadd {K : Type} [CommRing K] (M : List (List K)) (a b : List K)
    (hab : a.length = b.length) :
    (M.map fun row => rowDot row (vadd a b)) =
      vadd (M.map fun row => rowDot row a) (M.map fun row => rowDot row b) := by
  induction M with
  | nil => rfl
  | cons row M ih =>
    have hrow := rowDot_vadd row a b hab
    simp only [vadd, List.map_cons, List.zipWith_cons_cons] at ih hrow ⊢
    rw [ih, hrow]

end FactorTheorems

end mbse
